import Mathlib

/-!
Shallow embedding of the technician dispatch and route-optimization engine
(src/hvac_routing.py) and proofs of its specified properties.

Modeling conventions:
* Python floats are real numbers; `math.sqrt` is `Real.sqrt` (total, agreeing
  with Python wherever Python does not raise), `math.atan2` is `atan2` below.
* Python ints are `ℤ`; `//` is `Int.fdiv` (floor division), `%` is `Int.emod`,
  `int(x)` truncation toward zero is `pyInt`, `round(x, 1)` (banker's rounding
  at one decimal) is `pyRound1`.
* Python dicts keyed by id strings are association lists with unique keys
  (`dinsert` replaces, `dlookup` finds the entry); dicts used only through
  total lookups are modeled as functions `String → β` built by left folds,
  so that a repeated key keeps the last value exactly as a dict comprehension
  does.
* The external VROOM solver invoked by `_vroom_optimize` is not part of this
  repository; its outcome is a parameter (`SolverOutcome`): either a schedule
  it returned or the fact that it raised.  `optimize_routes` returns
  `Except String Schedule`: `.ok` models a normal Python return and `.error`
  a propagated exception; the source has no raise statement on these paths,
  which the definition makes visible.
* `strftime("%H:%M")` on a seconds-since-midnight value is modeled as the
  (hour, minute) pair it renders.
-/

set_option autoImplicit false
set_option maxHeartbeats 1000000

namespace Hvac

/-- Technician record (dataclass `Technician`, src/hvac_routing.py:30). -/
structure Technician where
  id : String
  name : String
  lat : ℝ
  lon : ℝ
  skills : List String
  max_capacity : ℤ
  current_load : ℤ
  available_from : ℤ
  available_to : ℤ

/-- Job record (dataclass `Job`, src/hvac_routing.py:42). -/
structure Job where
  id : String
  lat : ℝ
  lon : ℝ
  service_type : String
  priority : ℤ
  estimated_duration : ℤ
  required_skills : List String
  time_window_start : Option ℤ
  time_window_end : Option ℤ
  customer_name : String
  address : String

/-- Route stop record (dataclass `RouteStop`, src/hvac_routing.py:56);
`arrival_time`/`departure_time` are the (hour, minute) pairs rendered by
`strftime("%H:%M")`. -/
structure RouteStop where
  job_id : String
  technician_id : String
  arrival_time : ℤ × ℤ
  departure_time : ℤ × ℤ
  travel_minutes : ℤ
  service_minutes : ℤ
  lat : ℝ
  lon : ℝ
  address : String
  distance_km : ℝ

/-- A Schedule is the dict technician id → ordered stops, as an association
list in insertion order with unique keys. -/
abbrev Schedule := List (String × List RouteStop)

/-- First entry of an association list with the given key. -/
def dlookup {α : Type} (k : String) : List (String × α) → Option α
  | [] => none
  | (k', v) :: rest => if k' = k then some v else dlookup k rest

/-- Lookup with a default (Python `d.get(k, v)`). -/
def dgetD {α : Type} (d : List (String × α)) (k : String) (v : α) : α :=
  (dlookup k d).getD v

/-- Dict insertion: replaces the value at an existing key (keeping its
position, like Python dicts), else appends. -/
def dinsert {α : Type} (k : String) (v : α) : List (String × α) → List (String × α)
  | [] => [(k, v)]
  | (k', v') :: rest => if k' = k then (k', v) :: rest else (k', v') :: dinsert k v rest

/-- In-place update of the value at a key (`d[k] = f(d[k])`); no-op when the
key is absent (the source only updates existing keys). -/
def dmodify {α : Type} (k : String) (f : α → α) : List (String × α) → List (String × α)
  | [] => []
  | (k', v) :: rest => if k' = k then (k', f v) :: rest else (k', v) :: dmodify k f rest

/-- Python `int(x)`: truncation toward zero. -/
noncomputable def pyInt (x : ℝ) : ℤ := if 0 ≤ x then ⌊x⌋ else ⌈x⌉

/-- Python `round(y)` on a real value: round half to even. -/
noncomputable def pyRoundInt (y : ℝ) : ℤ :=
  if Int.fract y < 1 / 2 then ⌊y⌋
  else if 1 / 2 < Int.fract y then ⌊y⌋ + 1
  else if Even ⌊y⌋ then ⌊y⌋ else ⌊y⌋ + 1

/-- Python `round(x, 1)`: round to one decimal, half to even. -/
noncomputable def pyRound1 (x : ℝ) : ℝ := (pyRoundInt (10 * x) : ℝ) / 10

/-- `(datetime.min + timedelta(seconds=s)).strftime("%H:%M")` as the
(hour, minute) pair it renders. -/
def strftimeHM (s : ℤ) : ℤ × ℤ := (s.fdiv 3600 % 24, s.fdiv 60 % 60)

/-- Matrix entry `m[i][j]` of an integer matrix (indices stay in range at all
call sites, so the default is never observed). -/
def mget (m : List (List ℤ)) (i j : ℕ) : ℤ := ((m.getD i []).getD j 0)

/-- Matrix entry `m[i][j]` of a real matrix. -/
def mgetR (m : List (List ℝ)) (i j : ℕ) : ℝ := ((m.getD i []).getD j 0)

/-- `math.radians`. -/
noncomputable def radians (x : ℝ) : ℝ := x * (Real.pi / 180)

/-- `math.atan2 y x` (two-argument arctangent; signed zeros do not exist in
`ℝ`, and all call sites have `x ≥ 0`). -/
noncomputable def atan2 (y x : ℝ) : ℝ :=
  if 0 < x then Real.arctan (y / x)
  else if x < 0 then
    (if 0 ≤ y then Real.arctan (y / x) + Real.pi else Real.arctan (y / x) - Real.pi)
  else if 0 < y then Real.pi / 2
  else if y < 0 then -(Real.pi / 2)
  else 0

/-- The intermediate `a` of the haversine formula (src/hvac_routing.py:125). -/
noncomputable def hav_a (lat1 lon1 lat2 lon2 : ℝ) : ℝ :=
  Real.sin (radians (lat2 - lat1) / 2) ^ 2 +
    Real.cos (radians lat1) * Real.cos (radians lat2) *
      Real.sin (radians (lon2 - lon1) / 2) ^ 2

/-- `haversine` (src/hvac_routing.py:120): great-circle distance in km. -/
noncomputable def haversine (lat1 lon1 lat2 lon2 : ℝ) : ℝ :=
  6371 * 2 * atan2 (Real.sqrt (hav_a lat1 lon1 lat2 lon2))
    (Real.sqrt (1 - hav_a lat1 lon1 lat2 lon2))

/-- `estimate_travel_seconds` (src/hvac_routing.py:128). -/
noncomputable def estimate_travel_seconds (distance_km : ℝ) (profile : String) : ℤ :=
  let speed : ℝ :=
    if profile = "urban" then 30
    else if profile = "suburban" then 45
    else if profile = "highway" then 65
    else if profile = "rush_hour" then 20
    else 30
  pyInt (distance_km / speed * 3600)

/-- `points[i]` for a coordinate list. -/
def pget (points : List (ℝ × ℝ)) (i : ℕ) : ℝ × ℝ := points.getD i (0, 0)

/-- `build_duration_matrix` (src/hvac_routing.py:132): pairwise travel
seconds, zero diagonal. -/
noncomputable def build_duration_matrix (points : List (ℝ × ℝ)) (profile : String) :
    List (List ℤ) :=
  (List.range points.length).map (fun i =>
    (List.range points.length).map (fun j =>
      if i = j then 0
      else estimate_travel_seconds
        (haversine (pget points i).1 (pget points i).2 (pget points j).1 (pget points j).2)
        profile))

/-- `build_distance_matrix` (src/hvac_routing.py:143): pairwise km, zero
diagonal. -/
noncomputable def build_distance_matrix (points : List (ℝ × ℝ)) : List (List ℝ) :=
  (List.range points.length).map (fun i =>
    (List.range points.length).map (fun j =>
      if i = j then 0
      else haversine (pget points i).1 (pget points i).2 (pget points j).1 (pget points j).2))

/-- The skill guard of the greedy fallback (src/hvac_routing.py:367): a
technician passes unless the job requires skills and not all of them are in
the technician's skill list. -/
def skillOk (j : Job) (t : Technician) : Bool :=
  j.required_skills.isEmpty || j.required_skills.all (fun s => t.skills.contains s)

/-- The running best of the greedy selection loop: cost, job index, job,
technician index, technician (`best_cost`, `best_ji`, `best_tech` in the
source, plus the list positions that identify them). -/
structure Choice where
  cost : ℚ
  ji : ℕ
  job : Job
  ti : ℕ
  tech : Technician

/-- `cost = duration_matrix[tp][jp] / max(job.priority, 1)`
(src/hvac_routing.py:370), as an exact rational. -/
def jobCost (durM : List (List ℤ)) (nt : ℕ) (pos : String → ℕ) (ji : ℕ) (j : Job)
    (t : Technician) : ℚ :=
  (mget durM (pos t.id) (nt + ji) : ℚ) / ((max j.priority 1 : ℤ) : ℚ)

/-- `cost < best_cost`, where an absent best is `float("inf")`. -/
def cBetter (c : ℚ) : Option Choice → Bool
  | none => true
  | some ch => decide (c < ch.cost)

/-- One inner-loop iteration of the greedy selection (src/hvac_routing.py:
364-374): skip a technician at capacity or failing the skill guard, else
update the best on strict cost improvement. -/
def consider (durM : List (List ℤ)) (nt : ℕ) (pos : String → ℕ) (load : String → ℤ)
    (ji : ℕ) (j : Job) (b : Option Choice) (ti : ℕ) (t : Technician) : Option Choice :=
  if t.max_capacity ≤ load t.id then b
  else if skillOk j t = false then b
  else if cBetter (jobCost durM nt pos ji j t) b then
    some ⟨jobCost durM nt pos ji j t, ji, j, ti, t⟩
  else b

/-- The inner `for tech in technicians` loop, carrying the technician's list
position. -/
def innerSel (durM : List (List ℤ)) (nt : ℕ) (pos : String → ℕ) (load : String → ℤ)
    (ji : ℕ) (j : Job) : Option Choice → ℕ → List Technician → Option Choice
  | b, _, [] => b
  | b, ti, t :: rest =>
    innerSel durM nt pos load ji j (consider durM nt pos load ji j b ti t) (ti + 1) rest

/-- The outer `for ji, job in enumerate(jobs)` loop: an already-assigned job
index is skipped before the inner loop runs (src/hvac_routing.py:360-361). -/
def outerSel (durM : List (List ℤ)) (nt : ℕ) (pos : String → ℕ) (load : String → ℤ)
    (asg : Finset ℕ) (techs : List Technician) :
    Option Choice → ℕ → List Job → Option Choice
  | b, _, [] => b
  | b, ji, j :: rest =>
    outerSel durM nt pos load asg techs
      (if ji ∈ asg then b else innerSel durM nt pos load ji j b 0 techs) (ji + 1) rest

/-- One full selection round of the greedy fallback
(src/hvac_routing.py:355-374): the best feasible (job, technician) pair, or
`none` when no pair is feasible. -/
def selectPair (durM : List (List ℤ)) (nt : ℕ) (pos : String → ℕ) (load : String → ℤ)
    (asg : Finset ℕ) (techs : List Technician) (jobs : List Job) : Option Choice :=
  outerSel durM nt pos load asg techs none 0 jobs

/-- The feasible choices a single job offers, in technician list order
(specification device for the selection loop). -/
def candChoices (durM : List (List ℤ)) (nt : ℕ) (pos : String → ℕ) (load : String → ℤ)
    (ji : ℕ) (j : Job) : ℕ → List Technician → List Choice
  | _, [] => []
  | ti, t :: rest =>
    if load t.id < t.max_capacity ∧ skillOk j t = true then
      ⟨jobCost durM nt pos ji j t, ji, j, ti, t⟩ ::
        candChoices durM nt pos load ji j (ti + 1) rest
    else candChoices durM nt pos load ji j (ti + 1) rest

/-- All feasible choices, in scan order: jobs outer, technicians inner
(specification device for the selection loop). -/
def allCands (durM : List (List ℤ)) (nt : ℕ) (pos : String → ℕ) (load : String → ℤ)
    (asg : Finset ℕ) (techs : List Technician) : ℕ → List Job → List Choice
  | _, [] => []
  | ji, j :: rest =>
    (if ji ∈ asg then [] else candChoices durM nt pos load ji j 0 techs) ++
      allCands durM nt pos load asg techs (ji + 1) rest

/-- Keep-first-strict-minimum step (specification device). -/
def chStep (b : Option Choice) (c : Choice) : Option Choice :=
  if cBetter c.cost b then some c else b

/-- The mutable state of the greedy fallback (src/hvac_routing.py:349-353):
routes under construction, assigned job indices, and per-technician time,
position, and load dicts (as total functions on ids). -/
structure GreedyState where
  routes : Schedule
  assigned : Finset ℕ
  tech_time : String → ℤ
  tech_pos : String → ℕ
  tech_load : String → ℤ

/-- The RouteStop built by one greedy assignment (src/hvac_routing.py:379-397). -/
noncomputable def stepStop (durM : List (List ℤ)) (distM : List (List ℝ)) (nt : ℕ)
    (st : GreedyState) (ch : Choice) : RouteStop :=
  let jp := nt + ch.ji
  let tp := st.tech_pos ch.tech.id
  let travel_secs := mget durM tp jp
  let dist_km := mgetR distM tp jp
  let arrival_secs := st.tech_time ch.tech.id + travel_secs
  let departure_secs := arrival_secs + ch.job.estimated_duration
  { job_id := ch.job.id
    technician_id := ch.tech.id
    arrival_time := strftimeHM arrival_secs
    departure_time := strftimeHM departure_secs
    travel_minutes := travel_secs.fdiv 60
    service_minutes := ch.job.estimated_duration.fdiv 60
    lat := ch.job.lat
    lon := ch.job.lon
    address := ch.job.address
    distance_km := pyRound1 dist_km }

/-- The state after one greedy assignment (src/hvac_routing.py:398-402):
append the stop, advance the chosen technician's time, position, and load,
mark the job index assigned. -/
noncomputable def stepState (durM : List (List ℤ)) (distM : List (List ℝ)) (nt : ℕ)
    (st : GreedyState) (ch : Choice) : GreedyState :=
  { routes := dmodify ch.tech.id (fun stops => stops ++ [stepStop durM distM nt st ch]) st.routes
    assigned := insert ch.ji st.assigned
    tech_time := fun s =>
      if s = ch.tech.id then st.tech_time ch.tech.id + mget durM (st.tech_pos ch.tech.id) (nt + ch.ji) + ch.job.estimated_duration
      else st.tech_time s
    tech_pos := fun s => if s = ch.tech.id then nt + ch.ji else st.tech_pos s
    tech_load := fun s => if s = ch.tech.id then st.tech_load s + 1 else st.tech_load s }

/-- One iteration of the greedy assignment loop
(src/hvac_routing.py:355-402): select the best feasible pair and apply it;
`none` models the `break` when nothing is feasible. -/
noncomputable def greedyStep (durM : List (List ℤ)) (distM : List (List ℝ)) (nt : ℕ)
    (jobs : List Job) (techs : List Technician) (st : GreedyState) : Option GreedyState :=
  match selectPair durM nt st.tech_pos st.tech_load st.assigned techs jobs with
  | none => none
  | some ch => some (stepState durM distM nt st ch)

/-- The `for _ in range(len(jobs))` loop with its `break`
(src/hvac_routing.py:355-377). -/
noncomputable def greedyLoop (durM : List (List ℤ)) (distM : List (List ℝ)) (nt : ℕ)
    (jobs : List Job) (techs : List Technician) : ℕ → GreedyState → GreedyState
  | 0, st => st
  | n + 1, st =>
    match greedyStep durM distM nt jobs techs st with
    | none => st
    | some st' => greedyLoop durM distM nt jobs techs n st'

/-- `{t.id: [] for t in technicians}`. -/
def initRoutes (techs : List Technician) : Schedule :=
  techs.foldl (fun d t => dinsert t.id ([] : List RouteStop) d) []

/-- A dict comprehension `{t.id: g(t) for t in technicians}` as a total
function (later technicians override earlier ones with the same id, exactly
like the dict). -/
def dictOf {β : Type} (d0 : β) (g : Technician → β) (techs : List Technician) :
    String → β :=
  techs.foldl (fun f t => fun s => if s = t.id then g t else f s) (fun _ => d0)

/-- `{t.id: i for i, t in enumerate(technicians)}` as a total function. -/
def initPosAux : (String → ℕ) → ℕ → List Technician → (String → ℕ)
  | f, _, [] => f
  | f, i, t :: rest => initPosAux (fun s => if s = t.id then i else f s) (i + 1) rest

/-- Initial greedy state (src/hvac_routing.py:349-353). -/
def initState (techs : List Technician) : GreedyState :=
  { routes := initRoutes techs
    assigned := ∅
    tech_time := dictOf 0 (fun t => t.available_from) techs
    tech_pos := initPosAux (fun _ => 0) 0 techs
    tech_load := dictOf 0 (fun t => t.current_load) techs }

/-- `_greedy_fallback` (src/hvac_routing.py:337-405).  The depot argument is
accepted and unused, as in the source. -/
noncomputable def greedy_fallback (technicians : List Technician) (jobs : List Job)
    (depot : ℝ × ℝ) (profile : String) : Schedule :=
  let points := technicians.map (fun t => (t.lat, t.lon)) ++ jobs.map (fun j => (j.lat, j.lon))
  let durM := build_duration_matrix points profile
  let distM := build_distance_matrix points
  (greedyLoop durM distM technicians.length jobs technicians jobs.length
    (initState technicians)).routes

/-- Outcome of the `_vroom_optimize` call: the external VROOM solver either
produced a schedule or raised an exception.  The solver is a third-party
black box, so it is a parameter of the embedding. -/
inductive SolverOutcome where
  | ok (s : Schedule)
  | raises

/-- `optimize_routes` (src/hvac_routing.py:189-203).  `.ok` is a normal
Python return; the function body contains no raise, and the solver call is
wrapped in `try/except` that falls back to the greedy planner, so every
branch returns `.ok`. -/
noncomputable def optimize_routes (vr : SolverOutcome) (technicians : List Technician)
    (jobs : List Job) (depot : ℝ × ℝ) (profile : String) : Except String Schedule :=
  if technicians.isEmpty || jobs.isEmpty then Except.ok []
  else
    match vr with
    | SolverOutcome.ok s => Except.ok s
    | SolverOutcome.raises => Except.ok (greedy_fallback technicians jobs depot profile)

/-- The dict returned by `estimate_savings` (src/hvac_routing.py:407-418). -/
structure SavingsReport where
  optimized_km : ℝ
  naive_estimate_km : ℝ
  savings_km : ℝ
  savings_pct : ℝ
  total_travel_minutes : ℤ
  jobs_assigned : ℕ

/-- `total_km`: sum of all stops' `distance_km` over the schedule. -/
def totalKm (routes : Schedule) : ℝ :=
  (routes.map (fun p => (p.2.map (fun s => s.distance_km)).sum)).sum

/-- `total_minutes`: sum of all stops' `travel_minutes`. -/
def totalTravelMinutes (routes : Schedule) : ℤ :=
  (routes.map (fun p => (p.2.map (fun s => s.travel_minutes)).sum)).sum

/-- `estimate_savings` (src/hvac_routing.py:407-418). -/
noncomputable def estimate_savings (routes : Schedule) (naive_factor : ℝ) : SavingsReport :=
  let total_km := totalKm routes
  let naive_km := total_km * naive_factor
  { optimized_km := pyRound1 total_km
    naive_estimate_km := pyRound1 naive_km
    savings_km := pyRound1 (naive_km - total_km)
    savings_pct := if 0 < naive_km then pyRound1 ((1 - total_km / naive_km) * 100) else 0
    total_travel_minutes := totalTravelMinutes routes
    jobs_assigned := (routes.map (fun p => p.2.length)).sum }

/-- The `Job(...)` reconstructed from a surviving stop by `reoptimize`
(src/hvac_routing.py:436-442): dataclass defaults give priority 1 and no
required skills. -/
def jobFromStop (stop : RouteStop) : Job :=
  { id := stop.job_id
    lat := stop.lat
    lon := stop.lon
    service_type := "existing"
    priority := 1
    estimated_duration := stop.service_minutes * 60
    required_skills := []
    time_window_start := none
    time_window_end := none
    customer_name := ""
    address := stop.address }

/-- `reoptimize` (src/hvac_routing.py:420-451): keep uncompleted stops as
fresh jobs, append new jobs, reset each technician's `current_load` to the
count of its completed stops, and rerun `optimize_routes` (default
profile "urban"). -/
noncomputable def reoptimize (vr : SolverOutcome) (technicians : List Technician)
    (existing_routes : Schedule) (new_jobs : List Job) (completed : Finset String)
    (depot : ℝ × ℝ) : Except String Schedule :=
  let remaining_jobs := existing_routes.bind (fun p =>
    (p.2.filter (fun stop => stop.job_id ∉ completed)).map jobFromStop)
  let all_jobs := remaining_jobs ++ new_jobs
  let techs' := technicians.map (fun t =>
    { t with current_load :=
        ((dgetD existing_routes t.id []).filter (fun s => s.job_id ∈ completed)).length })
  optimize_routes vr techs' all_jobs depot "urban"

/-- The job ids covered by a schedule, as a set. -/
def stopIds (s : Schedule) : List String :=
  s.bind (fun p => p.2.map (fun stop => stop.job_id))

/-- The set of job ids covered by a schedule. -/
def scheduleJobIds (s : Schedule) : Finset String := (stopIds s).toFinset

/-- Total number of stops in a schedule. -/
def stopCount (s : Schedule) : ℕ := (stopIds s).length

/-- The capacity invariant of a schedule relative to the technicians at call
time: no technician's stop list exceeds `max_capacity − current_load`. -/
def CapacityRespected (techs : List Technician) (s : Schedule) : Prop :=
  ∀ t ∈ techs, ((dgetD s t.id []).length : ℤ) ≤ t.max_capacity - t.current_load

/-- The skill invariant of a schedule: every stop's job has its required
skills contained in the skills of the technician the stop is filed under,
and the stop's recorded technician id is that technician's. -/
def SkillInvariant (jobs : List Job) (techs : List Technician) (s : Schedule) : Prop :=
  ∀ p ∈ s, ∀ stop ∈ p.2, ∃ j ∈ jobs, ∃ t ∈ techs,
    j.id = stop.job_id ∧ stop.technician_id = p.1 ∧ t.id = p.1 ∧
      ∀ sk ∈ j.required_skills, sk ∈ t.skills

/-- What the greedy selection round guarantees about a returned choice: it is
a feasible pair with the cost of the claim's formula, it minimizes that cost
over all feasible pairs, and among equal-cost feasible pairs it is first in
job-then-technician input order. -/
def ChoiceOptimal (durM : List (List ℤ)) (nt : ℕ) (pos : String → ℕ) (load : String → ℤ)
    (asg : Finset ℕ) (techs : List Technician) (jobs : List Job) (ch : Choice) : Prop :=
  (jobs.get? ch.ji = some ch.job ∧ techs.get? ch.ti = some ch.tech ∧ ch.ji ∉ asg ∧
    load ch.tech.id < ch.tech.max_capacity ∧ skillOk ch.job ch.tech = true ∧
    ch.cost = jobCost durM nt pos ch.ji ch.job ch.tech) ∧
  (∀ ji ti (j : Job) (t : Technician), jobs.get? ji = some j → techs.get? ti = some t →
    ji ∉ asg → load t.id < t.max_capacity → skillOk j t = true →
    ch.cost < jobCost durM nt pos ji j t ∨
      (ch.cost = jobCost durM nt pos ji j t ∧ (ch.ji < ji ∨ (ch.ji = ji ∧ ch.ti ≤ ti))))

/-- A default Job value (used only as the default of `List.getD`; every index
it is used at is in range). -/
def jdef : Job := ⟨"", 0, 0, "", 1, 3600, [], none, none, "", ""⟩

/-- Loop invariant: every technician has an entry in the routes dict. -/
def KeysInv (techs : List Technician) (st : GreedyState) : Prop :=
  ∀ t ∈ techs, ∃ v, dlookup t.id st.routes = some v

/-- Loop invariant for the capacity bound: every technician's routes entry
exists, the load dict equals `current_load` plus the stops assigned so far,
and the load never exceeds `max max_capacity current_load`. -/
def CapInv (techs : List Technician) (st : GreedyState) : Prop :=
  ∀ t ∈ techs, ∃ stops, dlookup t.id st.routes = some stops ∧
    st.tech_load t.id = t.current_load + stops.length ∧
    st.tech_load t.id ≤ max t.max_capacity t.current_load

/-- Loop invariant for job-id coverage: the ids filed in the routes are
exactly the ids of the assigned job indices, and assigned indices are in
range. -/
def IdsInv (jobs : List Job) (st : GreedyState) : Prop :=
  (stopIds st.routes).toFinset =
      st.assigned.image (fun ji => (jobs.getD ji jdef).id) ∧
    st.assigned ⊆ Finset.range jobs.length

/-- Total remaining capacity over the technicians, under the current load
dict. -/
def slack (techs : List Technician) (st : GreedyState) : ℤ :=
  (techs.map (fun t => max (t.max_capacity - st.tech_load t.id) 0)).sum

/-- Number of job indices not yet assigned. -/
def ucard (jobs : List Job) (st : GreedyState) : ℕ :=
  (Finset.range jobs.length \ st.assigned).card

/-- Example technician with one skill and free capacity. -/
def T1 : Technician := ⟨"t1", "Alice", 0, 0, ["hvac"], 8, 0, 28800, 64800⟩

/-- Example job with no skill requirements. -/
def J1 : Job := ⟨"j1", 0, 0, "maintenance", 1, 3600, [], none, none, "", ""⟩

/-- Example technician with zero capacity. -/
def T0 : Technician := ⟨"t0", "Bob", 0, 0, [], 0, 0, 28800, 64800⟩

/-- Example stop filed under technician t0. -/
def stopA : RouteStop := ⟨"a", "t0", (8, 0), (9, 0), 0, 60, 0, 0, "", 0⟩

/-- Example stop with one optimized kilometre. -/
def exStop : RouteStop := ⟨"e1", "t1", (8, 0), (9, 0), 10, 60, 0, 0, "", 1⟩

/-- Example one-stop schedule with one optimized kilometre. -/
def exSched : Schedule := [("t1", [exStop])]

/-- Example duration matrix for the selection-round theorem. -/
def exDurM : List (List ℤ) := [[0, 7], [0, 0]]

/-- Expected choice of the selection round on the example data. -/
def exChoice : Choice :=
  ⟨jobCost exDurM 1 (fun _ => 0) 0 J1 T1, 0, J1, 0, T1⟩

section DictLemmas

variable {α : Type}

theorem dlookup_dinsert_self (k : String) (v : α) (d : List (String × α)) :
    dlookup k (dinsert k v d) = some v := by
  induction d with
  | nil => simp [dlookup, dinsert]
  | cons p rest ih =>
    by_cases h : p.1 = k
    · simp [dinsert, dlookup, h]
    · simp [dinsert, dlookup, h, ih]

theorem dlookup_dinsert_ne (k k' : String) (v : α) (d : List (String × α))
    (h : k' ≠ k) : dlookup k' (dinsert k v d) = dlookup k' d := by
  induction d with
  | nil =>
    simp only [dinsert, dlookup]
    rw [if_neg (fun hh : k = k' => h hh.symm)]
  | cons p rest ih =>
    by_cases hp : p.1 = k
    · simp only [dinsert, if_pos hp, dlookup]
      have hc : ¬(p.1 = k') := fun hh => h ((hp ▸ hh).symm)
      rw [if_neg hc, if_neg hc]
    · simp only [dinsert, if_neg hp, dlookup, ih]

theorem dlookup_dmodify_self (k : String) (f : α → α) (d : List (String × α)) (v : α)
    (h : dlookup k d = some v) : dlookup k (dmodify k f d) = some (f v) := by
  induction d with
  | nil => simp [dlookup] at h
  | cons p rest ih =>
    by_cases hp : p.1 = k
    · rw [dlookup, if_pos hp] at h
      rw [Option.some_inj] at h
      simp [dmodify, dlookup, hp, h]
    · rw [dlookup, if_neg hp] at h
      simp [dmodify, dlookup, hp, ih h]

theorem dlookup_dmodify_ne (k k' : String) (f : α → α) (d : List (String × α))
    (h : k' ≠ k) : dlookup k' (dmodify k f d) = dlookup k' d := by
  induction d with
  | nil => simp [dmodify]
  | cons p rest ih =>
    by_cases hp : p.1 = k
    · simp only [dmodify, if_pos hp, dlookup]
      rw [if_neg (fun hh : p.1 = k' => h (hp ▸ hh).symm), if_neg (fun hh : p.1 = k' => h (hp ▸ hh).symm)]
    · simp only [dmodify, if_neg hp, dlookup, ih]

theorem dlookup_mem {k : String} {v : α} {d : List (String × α)}
    (h : dlookup k d = some v) : (k, v) ∈ d := by
  induction d with
  | nil => simp [dlookup] at h
  | cons p rest ih =>
    by_cases hp : p.1 = k
    · rw [dlookup, if_pos hp, Option.some_inj] at h
      refine List.mem_cons.mpr (Or.inl ?_)
      rw [← hp, ← h]
    · rw [dlookup, if_neg hp] at h
      exact List.mem_cons_of_mem _ (ih h)

theorem mem_dinsert {k : String} {v : α} {p : String × α} {d : List (String × α)}
    (h : p ∈ dinsert k v d) : p = (k, v) ∨ p ∈ d := by
  induction d with
  | nil => simpa [dinsert] using h
  | cons q rest ih =>
    by_cases hq : q.1 = k
    · simp only [dinsert, if_pos hq] at h
      rcases List.mem_cons.mp h with h | h
      · left; rw [h, hq]
      · right; exact List.mem_cons_of_mem _ h
    · simp only [dinsert, if_neg hq] at h
      rcases List.mem_cons.mp h with h | h
      · right; exact h ▸ List.mem_cons_self _ _
      · rcases ih h with h | h
        · left; exact h
        · right; exact List.mem_cons_of_mem _ h

theorem mem_dmodify {k : String} {f : α → α} {p : String × α} {d : List (String × α)}
    (h : p ∈ dmodify k f d) :
    p ∈ d ∨ (p.1 = k ∧ ∃ v, (k, v) ∈ d ∧ p.2 = f v) := by
  induction d with
  | nil => simp [dmodify] at h
  | cons q rest ih =>
    by_cases hq : q.1 = k
    · simp only [dmodify, if_pos hq] at h
      rcases List.mem_cons.mp h with h | h
      · right
        refine ⟨by rw [h]; exact hq, q.2, ?_, by rw [h]⟩
        refine List.mem_cons.mpr (Or.inl ?_)
        rw [← hq]
      · left; exact List.mem_cons_of_mem _ h
    · simp only [dmodify, if_neg hq] at h
      rcases List.mem_cons.mp h with h | h
      · left; exact h ▸ List.mem_cons_self _ _
      · rcases ih h with h | ⟨h1, v, hv, h2⟩
        · left; exact List.mem_cons_of_mem _ h
        · right; exact ⟨h1, v, List.mem_cons_of_mem _ hv, h2⟩

end DictLemmas

theorem skillOk_iff (j : Job) (t : Technician) :
    skillOk j t = true ↔ ∀ sk ∈ j.required_skills, sk ∈ t.skills := by
  simp only [skillOk, Bool.or_eq_true, List.isEmpty_iff, List.all_eq_true, List.contains,
    List.elem_eq_mem, decide_eq_true_eq]
  constructor
  · rintro (h | h)
    · simp [h]
    · exact h
  · intro h
    right
    exact h

section SelectionFold

variable (durM : List (List ℤ)) (nt : ℕ) (pos : String → ℕ) (load : String → ℤ)
variable (asg : Finset ℕ) (techs : List Technician)

theorem consider_eq (ji : ℕ) (j : Job) (b : Option Choice) (ti : ℕ) (t : Technician) :
    consider durM nt pos load ji j b ti t =
      if load t.id < t.max_capacity ∧ skillOk j t = true then
        chStep b ⟨jobCost durM nt pos ji j t, ji, j, ti, t⟩
      else b := by
  unfold consider chStep
  by_cases h1 : t.max_capacity ≤ load t.id
  · rw [if_pos h1, if_neg (fun hc => absurd hc.1 (not_lt.mpr h1))]
  · rw [if_neg h1]
    by_cases h2 : skillOk j t = false
    · rw [if_pos h2, if_neg (fun hc => by rw [hc.2] at h2; cases h2)]
    · have h3 : skillOk j t = true := by
        rcases Bool.eq_false_or_eq_true (skillOk j t) with h | h
        · exact h
        · exact absurd h h2
      have h4 : load t.id < t.max_capacity ∧ skillOk j t = true := ⟨not_le.mp h1, h3⟩
      rw [if_neg h2, if_pos h4]

theorem innerSel_eq_foldl (ji : ℕ) (j : Job) :
    ∀ (rest : List Technician) (b : Option Choice) (ti : ℕ),
      innerSel durM nt pos load ji j b ti rest =
        List.foldl chStep b (candChoices durM nt pos load ji j ti rest) := by
  intro rest
  induction rest with
  | nil => intro b ti; rfl
  | cons t rest ih =>
    intro b ti
    simp only [innerSel, candChoices, consider_eq]
    by_cases hc : load t.id < t.max_capacity ∧ skillOk j t = true
    · rw [if_pos hc, if_pos hc, List.foldl_cons, ih]
    · rw [if_neg hc, if_neg hc, ih]

theorem outerSel_eq_foldl :
    ∀ (js : List Job) (b : Option Choice) (ji : ℕ),
      outerSel durM nt pos load asg techs b ji js =
        List.foldl chStep b (allCands durM nt pos load asg techs ji js) := by
  intro js
  induction js with
  | nil => intro b ji; rfl
  | cons j rest ih =>
    intro b ji
    simp only [outerSel, allCands]
    by_cases hc : ji ∈ asg
    · rw [if_pos hc, if_pos hc, List.nil_append, ih]
    · rw [if_neg hc, if_neg hc, ih, List.foldl_append, innerSel_eq_foldl]

theorem selectPair_eq_foldl (jobs : List Job) :
    selectPair durM nt pos load asg techs jobs =
      List.foldl chStep none (allCands durM nt pos load asg techs 0 jobs) := by
  unfold selectPair
  rw [outerSel_eq_foldl]

end SelectionFold

theorem chStep_isSome (b : Option Choice) (c : Choice) (h : b.isSome = true) :
    (chStep b c).isSome = true := by
  unfold chStep
  split
  · rfl
  · exact h

theorem foldl_chStep_isSome (l : List Choice) :
    ∀ b : Option Choice, b.isSome = true → (List.foldl chStep b l).isSome = true := by
  induction l with
  | nil => intro b h; exact h
  | cons c cs ih => intro b h; exact ih _ (chStep_isSome b c h)

theorem foldl_chStep_ne_none (l : List Choice) (hl : l ≠ []) :
    List.foldl chStep none l ≠ none := by
  match l, hl with
  | c :: cs, _ =>
    rw [List.foldl_cons]
    have h1 : (chStep none c).isSome = true := by unfold chStep cBetter; simp
    have h2 := foldl_chStep_isSome cs _ h1
    intro hn
    rw [hn] at h2
    cases h2

theorem foldl_chStep_mem (l : List Choice) :
    ∀ (b : Option Choice) (ch : Choice), List.foldl chStep b l = some ch →
      b = some ch ∨ ch ∈ l := by
  induction l with
  | nil => intro b ch h; left; exact h
  | cons c cs ih =>
    intro b ch h
    rw [List.foldl_cons] at h
    rcases ih _ _ h with h' | h'
    · by_cases hc : cBetter c.cost b = true
      · unfold chStep at h'
        rw [if_pos hc, Option.some_inj] at h'
        right
        exact h' ▸ List.mem_cons_self _ _
      · unfold chStep at h'
        rw [if_neg hc] at h'
        left
        exact h'
    · right
      exact List.mem_cons_of_mem _ h'

theorem foldl_chStep_min (l : List Choice) :
    ∀ (b : Option Choice) (ch : Choice), List.foldl chStep b l = some ch →
      (∀ c ∈ l, ch.cost ≤ c.cost) ∧ (∀ c0, b = some c0 → ch.cost ≤ c0.cost) := by
  induction l with
  | nil =>
    intro b ch h
    rw [List.foldl_nil] at h
    refine ⟨by simp, fun c0 hb => ?_⟩
    rw [h, Option.some_inj] at hb
    rw [hb]
  | cons c cs ih =>
    intro b ch h
    rw [List.foldl_cons] at h
    obtain ⟨h1, h2⟩ := ih _ _ h
    by_cases hc : cBetter c.cost b = true
    · have hbc : chStep b c = some c := by unfold chStep; rw [if_pos hc]
      have hcc : ch.cost ≤ c.cost := h2 c hbc
      refine ⟨?_, ?_⟩
      · intro x hx
        rcases List.mem_cons.mp hx with rfl | hx
        · exact hcc
        · exact h1 x hx
      · intro c0 hb
        unfold cBetter at hc
        rw [hb] at hc
        exact hcc.trans (of_decide_eq_true hc).le
    · have hb' : chStep b c = b := by unfold chStep; rw [if_neg hc]
      refine ⟨?_, fun c0 hb => h2 c0 (by rw [hb', hb])⟩
      intro x hx
      rcases List.mem_cons.mp hx with rfl | hx
      · cases hbm : b with
        | none => rw [hbm] at hc; exact absurd rfl hc
        | some c0 =>
          unfold cBetter at hc
          rw [hbm] at hc
          have hle : c0.cost ≤ x.cost := not_lt.mp (fun hlt => hc (decide_eq_true hlt))
          exact (h2 c0 (by rw [hb', hbm])).trans hle
      · exact h1 x hx

theorem foldl_chStep_first (l : List Choice) :
    ∀ (b : Option Choice) (ch : Choice), List.foldl chStep b l = some ch →
      (b = some ch ∧ ∀ c ∈ l, ¬c.cost < ch.cost) ∨
        ∃ l1 l2, l = l1 ++ ch :: l2 ∧ (∀ c ∈ l1, ch.cost < c.cost) ∧
          (∀ c0, b = some c0 → ch.cost < c0.cost) := by
  induction l with
  | nil => intro b ch h; left; exact ⟨h, by simp⟩
  | cons c cs ih =>
    intro b ch h
    rw [List.foldl_cons] at h
    rcases ih _ _ h with ⟨h1, h2⟩ | ⟨l1, l2, heq, hgt, hb⟩
    · by_cases hc : cBetter c.cost b = true
      · have hch : some c = some ch := by rw [← h1]; unfold chStep; rw [if_pos hc]
        rw [Option.some_inj] at hch
        right
        refine ⟨[], cs, by rw [List.nil_append, hch], by simp, ?_⟩
        intro c0 hbb
        unfold cBetter at hc
        rw [hbb] at hc
        rw [← hch]
        exact of_decide_eq_true hc
      · have hbb : chStep b c = b := by unfold chStep; rw [if_neg hc]
        rw [hbb] at h1
        left
        refine ⟨h1, ?_⟩
        intro x hx
        rcases List.mem_cons.mp hx with rfl | hx
        · unfold cBetter at hc
          rw [h1] at hc
          exact fun hlt => hc (decide_eq_true hlt)
        · exact h2 x hx
    · by_cases hc : cBetter c.cost b = true
      · have hsc : chStep b c = some c := by unfold chStep; rw [if_pos hc]
        have h3 : ch.cost < c.cost := hb c hsc
        right
        refine ⟨c :: l1, l2, by rw [List.cons_append, heq], ?_, ?_⟩
        · intro x hx
          rcases List.mem_cons.mp hx with rfl | hx
          · exact h3
          · exact hgt x hx
        · intro c0 hbb
          unfold cBetter at hc
          rw [hbb] at hc
          exact h3.trans (of_decide_eq_true hc)
      · have hsc : chStep b c = b := by unfold chStep; rw [if_neg hc]
        right
        refine ⟨c :: l1, l2, by rw [List.cons_append, heq], ?_,
          fun c0 hbb => hb c0 (by rw [hsc, hbb])⟩
        intro x hx
        rcases List.mem_cons.mp hx with rfl | hx
        · cases hbm : b with
          | none => rw [hbm] at hc; exact absurd rfl hc
          | some c0 =>
            have h4 : ch.cost < c0.cost := hb c0 (by rw [hsc, hbm])
            unfold cBetter at hc
            rw [hbm] at hc
            exact h4.trans_le (not_lt.mp (fun hlt => hc (decide_eq_true hlt)))
        · exact hgt x hx

section Candidates

variable (durM : List (List ℤ)) (nt : ℕ) (pos : String → ℕ) (load : String → ℤ)
variable (asg : Finset ℕ) (techs : List Technician) (jobsAll : List Job)

theorem candChoices_mem_basic (ji : ℕ) (j : Job) :
    ∀ (rest : List Technician) (ti : ℕ) (c : Choice),
      c ∈ candChoices durM nt pos load ji j ti rest →
        c.ji = ji ∧ c.job = j ∧ ti ≤ c.ti := by
  intro rest
  induction rest with
  | nil => intro ti c h; simp [candChoices] at h
  | cons t rest ih =>
    intro ti c h
    simp only [candChoices] at h
    by_cases hc : load t.id < t.max_capacity ∧ skillOk j t = true
    · rw [if_pos hc] at h
      rcases List.mem_cons.mp h with rfl | h
      · exact ⟨rfl, rfl, le_refl _⟩
      · obtain ⟨h1, h2, h3⟩ := ih (ti + 1) c h
        exact ⟨h1, h2, (Nat.le_succ ti).trans h3⟩
    · rw [if_neg hc] at h
      obtain ⟨h1, h2, h3⟩ := ih (ti + 1) c h
      exact ⟨h1, h2, (Nat.le_succ ti).trans h3⟩

theorem candChoices_pairwise (ji : ℕ) (j : Job) :
    ∀ (rest : List Technician) (ti : ℕ),
      (candChoices durM nt pos load ji j ti rest).Pairwise (fun a b => a.ti < b.ti) := by
  intro rest
  induction rest with
  | nil => intro ti; simp [candChoices]
  | cons t rest ih =>
    intro ti
    simp only [candChoices]
    by_cases hc : load t.id < t.max_capacity ∧ skillOk j t = true
    · rw [if_pos hc]
      refine List.pairwise_cons.mpr ⟨?_, ih (ti + 1)⟩
      intro c hc'
      have h3 := (candChoices_mem_basic durM nt pos load ji j rest (ti + 1) c hc').2.2
      exact Nat.lt_of_succ_le h3
    · rw [if_neg hc]
      exact ih (ti + 1)

theorem candChoices_sound (ji : ℕ) (j : Job) :
    ∀ (rest : List Technician) (ti : ℕ) (c : Choice), rest = techs.drop ti →
      c ∈ candChoices durM nt pos load ji j ti rest →
        techs.get? c.ti = some c.tech ∧ load c.tech.id < c.tech.max_capacity ∧
          skillOk j c.tech = true ∧ c.cost = jobCost durM nt pos ji j c.tech ∧
          c.job = j ∧ c.ji = ji := by
  intro rest
  induction rest with
  | nil => intro ti c _ h; simp [candChoices] at h
  | cons t rest ih =>
    intro ti c hd h
    have hget : techs.get? ti = some t := by
      have h0 := List.get?_drop techs ti 0
      rw [← hd] at h0
      rw [Nat.add_zero] at h0
      rw [← h0]
      rfl
    have hd' : rest = techs.drop (ti + 1) := by
      have h1 : techs.drop (ti + 1) = List.drop 1 (List.drop ti techs) := by
        rw [List.drop_drop]
      rw [h1, ← hd]
      rfl
    simp only [candChoices] at h
    by_cases hc : load t.id < t.max_capacity ∧ skillOk j t = true
    · rw [if_pos hc] at h
      rcases List.mem_cons.mp h with rfl | h
      · exact ⟨hget, hc.1, hc.2, rfl, rfl, rfl⟩
      · exact ih (ti + 1) c hd' h
    · rw [if_neg hc] at h
      exact ih (ti + 1) c hd' h

theorem candChoices_complete (ji : ℕ) (j : Job) :
    ∀ (rest : List Technician) (ti k : ℕ) (t : Technician), rest.get? k = some t →
      load t.id < t.max_capacity → skillOk j t = true →
        (⟨jobCost durM nt pos ji j t, ji, j, ti + k, t⟩ : Choice) ∈
          candChoices durM nt pos load ji j ti rest := by
  intro rest
  induction rest with
  | nil => intro ti k t h; simp at h
  | cons t' rest ih =>
    intro ti k t hk hload hsk
    simp only [candChoices]
    match k, hk with
    | 0, hk =>
      have ht : t' = t := by simpa using hk
      subst ht
      rw [if_pos ⟨hload, hsk⟩, Nat.add_zero]
      exact List.mem_cons_self _ _
    | k' + 1, hk =>
      have hk' : rest.get? k' = some t := by simpa using hk
      have hmem := ih (ti + 1) k' t hk' hload hsk
      have harith : ti + 1 + k' = ti + (k' + 1) := by omega
      rw [harith] at hmem
      by_cases hc : load t'.id < t'.max_capacity ∧ skillOk j t' = true
      · rw [if_pos hc]
        exact List.mem_cons_of_mem _ hmem
      · rw [if_neg hc]
        exact hmem

theorem allCands_mem_ji :
    ∀ (js : List Job) (ji : ℕ) (c : Choice),
      c ∈ allCands durM nt pos load asg techs ji js → ji ≤ c.ji := by
  intro js
  induction js with
  | nil => intro ji c h; simp [allCands] at h
  | cons j rest ih =>
    intro ji c h
    simp only [allCands] at h
    rcases List.mem_append.mp h with h | h
    · by_cases hc : ji ∈ asg
      · rw [if_pos hc] at h; simp at h
      · rw [if_neg hc] at h
        exact (candChoices_mem_basic durM nt pos load ji j techs 0 c h).1 ▸ le_refl _
    · exact (Nat.le_succ ji).trans (ih (ji + 1) c h)

theorem allCands_sound :
    ∀ (js : List Job) (ji : ℕ) (c : Choice), js = jobsAll.drop ji →
      c ∈ allCands durM nt pos load asg techs ji js →
        jobsAll.get? c.ji = some c.job ∧ c.ji ∉ asg ∧
          techs.get? c.ti = some c.tech ∧ load c.tech.id < c.tech.max_capacity ∧
          skillOk c.job c.tech = true ∧
          c.cost = jobCost durM nt pos c.ji c.job c.tech := by
  intro js
  induction js with
  | nil => intro ji c _ h; simp [allCands] at h
  | cons j rest ih =>
    intro ji c hd h
    have hget : jobsAll.get? ji = some j := by
      have h0 := List.get?_drop jobsAll ji 0
      rw [← hd] at h0
      rw [Nat.add_zero] at h0
      rw [← h0]
      rfl
    have hd' : rest = jobsAll.drop (ji + 1) := by
      have h1 : jobsAll.drop (ji + 1) = List.drop 1 (List.drop ji jobsAll) := by
        rw [List.drop_drop]
      rw [h1, ← hd]
      rfl
    simp only [allCands] at h
    rcases List.mem_append.mp h with h | h
    · by_cases hc : ji ∈ asg
      · rw [if_pos hc] at h; simp at h
      · rw [if_neg hc] at h
        obtain ⟨ht, hload, hsk, hcost, hjob, hji⟩ :=
          candChoices_sound durM nt pos load techs ji j techs 0 c (List.drop_zero techs).symm h
        rw [hji, hjob]
        exact ⟨hget, hc, ht, hload, hsk, hcost⟩
    · exact ih (ji + 1) c hd' h

theorem allCands_complete :
    ∀ (js : List Job) (ji p : ℕ) (j : Job) (k : ℕ) (t : Technician),
      js = jobsAll.drop ji → jobsAll.get? p = some j → ji ≤ p → p ∉ asg →
      techs.get? k = some t → load t.id < t.max_capacity → skillOk j t = true →
        (⟨jobCost durM nt pos p j t, p, j, k, t⟩ : Choice) ∈
          allCands durM nt pos load asg techs ji js := by
  intro js
  induction js with
  | nil =>
    intro ji p j k t hd hp hle _ _ _ _
    have hlen : jobsAll.length ≤ ji := List.drop_eq_nil_iff_le.mp hd.symm
    have : jobsAll.get? p = none := List.get?_eq_none.mpr (hlen.trans hle)
    rw [this] at hp
    cases hp
  | cons j0 rest ih =>
    intro ji p j k t hd hp hle hasg hk hload hsk
    have hget : jobsAll.get? ji = some j0 := by
      have h0 := List.get?_drop jobsAll ji 0
      rw [← hd] at h0
      rw [Nat.add_zero] at h0
      rw [← h0]
      rfl
    have hd' : rest = jobsAll.drop (ji + 1) := by
      have h1 : jobsAll.drop (ji + 1) = List.drop 1 (List.drop ji jobsAll) := by
        rw [List.drop_drop]
      rw [h1, ← hd]
      rfl
    simp only [allCands]
    rcases Nat.eq_or_lt_of_le hle with rfl | hlt
    · have hj : j0 = j := by
        rw [hget] at hp
        exact (Option.some_inj.mp hp)
      subst hj
      refine List.mem_append.mpr (Or.inl ?_)
      rw [if_neg hasg]
      have := candChoices_complete durM nt pos load ji j0 techs 0 k t hk hload hsk
      rw [Nat.zero_add] at this
      exact this
    · refine List.mem_append.mpr (Or.inr ?_)
      exact ih (ji + 1) p j k t hd' hp hlt hasg hk hload hsk

theorem allCands_pairwise :
    ∀ (js : List Job) (ji : ℕ),
      (allCands durM nt pos load asg techs ji js).Pairwise
        (fun a b : Choice => a.ji < b.ji ∨ (a.ji = b.ji ∧ a.ti < b.ti)) := by
  intro js
  induction js with
  | nil => intro ji; simp [allCands]
  | cons j rest ih =>
    intro ji
    simp only [allCands]
    refine List.pairwise_append.mpr ⟨?_, ih (ji + 1), ?_⟩
    · by_cases hc : ji ∈ asg
      · rw [if_pos hc]; simp
      · rw [if_neg hc]
        refine List.Pairwise.imp_of_mem ?_ (candChoices_pairwise durM nt pos load ji j techs 0)
        intro a b ha hb hab
        right
        have h1 := (candChoices_mem_basic durM nt pos load ji j techs 0 a ha).1
        have h2 := (candChoices_mem_basic durM nt pos load ji j techs 0 b hb).1
        rw [h1, h2]
        exact ⟨rfl, hab⟩
    · intro a ha b hb
      left
      have h1 : a.ji = ji := by
        by_cases hc : ji ∈ asg
        · rw [if_pos hc] at ha; simp at ha
        · rw [if_neg hc] at ha
          exact (candChoices_mem_basic durM nt pos load ji j techs 0 a ha).1
      have h2 : ji + 1 ≤ b.ji := allCands_mem_ji durM nt pos load asg techs rest (ji + 1) b hb
      omega

end Candidates

theorem selectPair_spec (durM : List (List ℤ)) (nt : ℕ) (pos : String → ℕ)
    (load : String → ℤ) (asg : Finset ℕ) (techs : List Technician) (jobsAll : List Job)
    (ch : Choice) (h : selectPair durM nt pos load asg techs jobsAll = some ch) :
    ChoiceOptimal durM nt pos load asg techs jobsAll ch := by
  rw [selectPair_eq_foldl] at h
  have hmem : ch ∈ allCands durM nt pos load asg techs 0 jobsAll := by
    rcases foldl_chStep_mem _ _ _ h with h' | h'
    · cases h'
    · exact h'
  obtain ⟨hj, hasg, ht, hload, hsk, hcost⟩ :=
    allCands_sound durM nt pos load asg techs jobsAll _ 0 ch (List.drop_zero jobsAll).symm hmem
  refine ⟨⟨hj, ht, hasg, hload, hsk, hcost⟩, ?_⟩
  intro ji ti j t hj' ht' hasg' hload' hsk'
  have he : (⟨jobCost durM nt pos ji j t, ji, j, ti, t⟩ : Choice) ∈
      allCands durM nt pos load asg techs 0 jobsAll :=
    allCands_complete durM nt pos load asg techs jobsAll _ 0 ji j ti t
      (List.drop_zero jobsAll).symm hj' (Nat.zero_le ji) hasg' ht' hload' hsk'
  have hle : ch.cost ≤ jobCost durM nt pos ji j t := (foldl_chStep_min _ _ _ h).1 _ he
  rcases lt_or_eq_of_le hle with hlt | heq
  · left; exact hlt
  · right
    refine ⟨heq, ?_⟩
    rcases foldl_chStep_first _ _ _ h with ⟨h1, _⟩ | ⟨l1, l2, hsplit, hgt, _⟩
    · cases h1
    · have hpw := allCands_pairwise durM nt pos load asg techs jobsAll 0
      rw [hsplit] at hpw he
      rcases List.mem_append.mp he with h2 | h2
      · exact absurd (heq ▸ hgt _ h2) (lt_irrefl _)
      · rcases List.mem_cons.mp h2 with h3 | h3
        · have hji : ch.ji = ji := by rw [← h3]
          have hti : ch.ti = ti := by rw [← h3]
          right
          exact ⟨hji.symm ▸ rfl, le_of_eq hti⟩
        · obtain ⟨-, hpw2, -⟩ := List.pairwise_append.mp hpw
          have := (List.pairwise_cons.mp hpw2).1 _ h3
          rcases this with h4 | ⟨h4, h5⟩
          · left; exact h4
          · right; exact ⟨h4, le_of_lt h5⟩

theorem selectPair_isSome (durM : List (List ℤ)) (nt : ℕ) (pos : String → ℕ)
    (load : String → ℤ) (asg : Finset ℕ) (techs : List Technician) (jobsAll : List Job)
    (ji ti : ℕ) (j : Job) (t : Technician) (hj : jobsAll.get? ji = some j)
    (ht : techs.get? ti = some t) (hasg : ji ∉ asg) (hload : load t.id < t.max_capacity)
    (hsk : skillOk j t = true) :
    selectPair durM nt pos load asg techs jobsAll ≠ none := by
  rw [selectPair_eq_foldl]
  apply foldl_chStep_ne_none
  apply List.ne_nil_of_mem
  exact allCands_complete durM nt pos load asg techs jobsAll _ 0 ji j ti t
    (List.drop_zero jobsAll).symm hj (Nat.zero_le ji) hasg ht hload hsk

section InitLemmas

theorem dlookup_dmodify_none {α : Type} (k : String) (f : α → α) (d : List (String × α))
    (h : dlookup k d = none) : dlookup k (dmodify k f d) = none := by
  induction d with
  | nil => simp [dmodify, dlookup]
  | cons p rest ih =>
    by_cases hp : p.1 = k
    · rw [dlookup, if_pos hp] at h
      cases h
    · rw [dlookup, if_neg hp] at h
      simp only [dmodify, if_neg hp, dlookup, if_neg hp]
      exact ih h

theorem foldl_override_not_mem {β : Type} (g : Technician → β) :
    ∀ (l : List Technician) (f : String → β) (k : String),
      k ∉ l.map (fun t => t.id) →
      (l.foldl (fun f t => fun s => if s = t.id then g t else f s) f) k = f k := by
  intro l
  induction l with
  | nil => intro f k _; rfl
  | cons t rest ih =>
    intro f k hk
    rw [List.map_cons] at hk
    have h1 : k ≠ t.id := fun h => hk (h ▸ List.mem_cons_self _ _)
    have h2 : k ∉ rest.map (fun t => t.id) := fun h => hk (List.mem_cons_of_mem _ h)
    rw [List.foldl_cons, ih _ k h2]
    simp [h1]

theorem foldl_override_mem {β : Type} (g : Technician → β) :
    ∀ (l : List Technician) (f : String → β),
      (l.map (fun t => t.id)).Nodup → ∀ t ∈ l,
      (l.foldl (fun f t => fun s => if s = t.id then g t else f s) f) t.id = g t := by
  intro l
  induction l with
  | nil => intro f _ t ht; cases ht
  | cons t0 rest ih =>
    intro f hN t ht
    rw [List.map_cons, List.nodup_cons] at hN
    rw [List.foldl_cons]
    rcases List.mem_cons.mp ht with rfl | ht
    · rw [foldl_override_not_mem g rest _ t.id hN.1]
      simp
    · exact ih _ hN.2 t ht

theorem dictOf_eq {β : Type} (d0 : β) (g : Technician → β) (l : List Technician)
    (hN : (l.map (fun t => t.id)).Nodup) (t : Technician) (ht : t ∈ l) :
    dictOf d0 g l t.id = g t :=
  foldl_override_mem g l _ hN t ht

theorem foldl_dinsert_lookup :
    ∀ (l : List Technician) (acc : Schedule) (k : String),
      dlookup k (l.foldl (fun d t => dinsert t.id ([] : List RouteStop) d) acc) =
        if k ∈ l.map (fun t => t.id) then some [] else dlookup k acc := by
  intro l
  induction l with
  | nil => intro acc k; simp
  | cons t rest ih =>
    intro acc k
    rw [List.foldl_cons, ih, List.map_cons]
    by_cases h1 : k ∈ rest.map (fun t => t.id)
    · rw [if_pos h1, if_pos (List.mem_cons_of_mem _ h1)]
    · rw [if_neg h1]
      by_cases h2 : k = t.id
      · subst h2
        rw [dlookup_dinsert_self, if_pos (List.mem_cons_self _ _)]
      · rw [dlookup_dinsert_ne _ _ _ _ h2,
          if_neg (fun h => by rcases List.mem_cons.mp h with h | h; exact h2 h; exact h1 h)]

theorem initRoutes_lookup (techs : List Technician) (t : Technician) (ht : t ∈ techs) :
    dlookup t.id (initRoutes techs) = some [] := by
  unfold initRoutes
  rw [foldl_dinsert_lookup]
  rw [if_pos (List.mem_map.mpr ⟨t, ht, rfl⟩)]

theorem foldl_dinsert_val :
    ∀ (l : List Technician) (acc : Schedule), (∀ p ∈ acc, p.2 = ([] : List RouteStop)) →
      ∀ p ∈ l.foldl (fun d t => dinsert t.id ([] : List RouteStop) d) acc, p.2 = [] := by
  intro l
  induction l with
  | nil => intro acc h p hp; exact h p hp
  | cons t rest ih =>
    intro acc h p hp
    rw [List.foldl_cons] at hp
    refine ih _ ?_ p hp
    intro q hq
    rcases mem_dinsert hq with rfl | hq
    · rfl
    · exact h q hq

theorem initRoutes_val (techs : List Technician) (p : String × List RouteStop)
    (hp : p ∈ initRoutes techs) : p.2 = [] :=
  foldl_dinsert_val techs [] (by intro q hq; cases hq) p hp

theorem initState_load (techs : List Technician)
    (hN : (techs.map (fun t => t.id)).Nodup) (t : Technician) (ht : t ∈ techs) :
    (initState techs).tech_load t.id = t.current_load :=
  dictOf_eq 0 (fun t => t.current_load) techs hN t ht

end InitLemmas

section LoopLemmas

variable (durM : List (List ℤ)) (distM : List (List ℝ)) (nt : ℕ)
variable (jobs : List Job) (techs : List Technician)

theorem greedyStep_cases (st : GreedyState) (st' : GreedyState)
    (h : greedyStep durM distM nt jobs techs st = some st') :
    ∃ ch, selectPair durM nt st.tech_pos st.tech_load st.assigned techs jobs = some ch ∧
      st' = stepState durM distM nt st ch := by
  unfold greedyStep at h
  cases hs : selectPair durM nt st.tech_pos st.tech_load st.assigned techs jobs with
  | none => rw [hs] at h; cases h
  | some ch =>
    rw [hs] at h
    exact ⟨ch, rfl, (Option.some_inj.mp h).symm⟩

theorem greedyLoop_preserve (P : GreedyState → Prop)
    (hstep : ∀ st st', greedyStep durM distM nt jobs techs st = some st' → P st → P st') :
    ∀ (fuel : ℕ) (st : GreedyState), P st →
      P (greedyLoop durM distM nt jobs techs fuel st) := by
  intro fuel
  induction fuel with
  | zero => intro st h; exact h
  | succ n ih =>
    intro st h
    simp only [greedyLoop]
    cases hs : greedyStep durM distM nt jobs techs st with
    | none => exact h
    | some st' => exact ih st' (hstep st st' hs h)

theorem greedyLoop_assigned_mono :
    ∀ (fuel : ℕ) (st : GreedyState),
      st.assigned ⊆ (greedyLoop durM distM nt jobs techs fuel st).assigned := by
  intro fuel
  induction fuel with
  | zero => intro st; exact Finset.Subset.refl _
  | succ n ih =>
    intro st
    simp only [greedyLoop]
    cases hs : greedyStep durM distM nt jobs techs st with
    | none => exact Finset.Subset.refl _
    | some st' =>
      obtain ⟨ch, -, rfl⟩ := greedyStep_cases durM distM nt jobs techs st st' hs
      exact (Finset.subset_insert _ _).trans (ih (stepState durM distM nt st ch))

theorem greedyLoop_len_mono (k : String) :
    ∀ (fuel : ℕ) (st : GreedyState),
      (dgetD st.routes k []).length ≤
        (dgetD (greedyLoop durM distM nt jobs techs fuel st).routes k []).length := by
  intro fuel
  induction fuel with
  | zero => intro st; exact le_refl _
  | succ n ih =>
    intro st
    simp only [greedyLoop]
    cases hs : greedyStep durM distM nt jobs techs st with
    | none => exact le_refl _
    | some st' =>
      obtain ⟨ch, -, rfl⟩ := greedyStep_cases durM distM nt jobs techs st st' hs
      refine le_trans ?_ (ih (stepState durM distM nt st ch))
      show (dgetD st.routes k []).length ≤
        (dgetD (dmodify ch.tech.id
          (fun stops => stops ++ [stepStop durM distM nt st ch]) st.routes) k []).length
      by_cases hk : k = ch.tech.id
      · subst hk
        cases hv : dlookup ch.tech.id st.routes with
        | none =>
          unfold dgetD
          rw [hv, dlookup_dmodify_none _ _ _ hv]
        | some v =>
          unfold dgetD
          rw [hv, dlookup_dmodify_self _ _ _ v hv]
          simp
      · unfold dgetD
        rw [dlookup_dmodify_ne _ _ _ _ hk]

end LoopLemmas

section CapacityInvariant

variable (durM : List (List ℤ)) (distM : List (List ℝ)) (nt : ℕ)
variable (jobs : List Job) (techs : List Technician)

theorem capInv_step (hN : (techs.map (fun t => t.id)).Nodup) (st st' : GreedyState)
    (h : greedyStep durM distM nt jobs techs st = some st') (hI : CapInv techs st) :
    CapInv techs st' := by
  obtain ⟨ch, hsel, rfl⟩ := greedyStep_cases durM distM nt jobs techs st st' h
  obtain ⟨⟨hj, ht, hasg, hload, hsk, hcost⟩, -⟩ :=
    selectPair_spec durM nt st.tech_pos st.tech_load st.assigned techs jobs ch hsel
  have htech : ch.tech ∈ techs := List.get?_mem ht
  intro t htmem
  obtain ⟨stops, hs1, hs2, hs3⟩ := hI t htmem
  by_cases hid : t.id = ch.tech.id
  · have hteq : t = ch.tech := List.inj_on_of_nodup_map hN htmem htech hid
    refine ⟨stops ++ [stepStop durM distM nt st ch], ?_, ?_, ?_⟩
    · show dlookup t.id (dmodify ch.tech.id _ st.routes) = _
      rw [hid]
      exact dlookup_dmodify_self _ _ _ stops (hid ▸ hs1)
    · show (if t.id = ch.tech.id then st.tech_load t.id + 1 else st.tech_load t.id) = _
      rw [if_pos hid, List.length_append, hs2]
      simp only [List.length_singleton]
      push_cast
      ring
    · show (if t.id = ch.tech.id then st.tech_load t.id + 1 else st.tech_load t.id) ≤ _
      rw [if_pos hid]
      have hlt : st.tech_load t.id < t.max_capacity := by
        rw [hteq]
        exact hload
      have := le_max_left t.max_capacity t.current_load
      omega
  · refine ⟨stops, ?_, ?_, ?_⟩
    · show dlookup t.id (dmodify ch.tech.id _ st.routes) = _
      rw [dlookup_dmodify_ne _ _ _ _ hid]
      exact hs1
    · show (if t.id = ch.tech.id then st.tech_load t.id + 1 else st.tech_load t.id) = _
      rw [if_neg hid]
      exact hs2
    · show (if t.id = ch.tech.id then st.tech_load t.id + 1 else st.tech_load t.id) ≤ _
      rw [if_neg hid]
      exact hs3

theorem capInv_init (hN : (techs.map (fun t => t.id)).Nodup) :
    CapInv techs (initState techs) := by
  intro t ht
  refine ⟨[], initRoutes_lookup techs t ht, ?_, ?_⟩
  · rw [show (initState techs).tech_load = dictOf 0 (fun t => t.current_load) techs from rfl,
      dictOf_eq 0 _ techs hN t ht]
    simp
  · rw [show (initState techs).tech_load = dictOf 0 (fun t => t.current_load) techs from rfl,
      dictOf_eq 0 _ techs hN t ht]
    exact le_max_right _ _

theorem capInv_loop (hN : (techs.map (fun t => t.id)).Nodup) (fuel : ℕ) :
    CapInv techs (greedyLoop durM distM nt jobs techs fuel (initState techs)) :=
  greedyLoop_preserve durM distM nt jobs techs (CapInv techs)
    (fun st st' h hI => capInv_step durM distM nt jobs techs hN st st' h hI)
    fuel (initState techs) (capInv_init techs hN)

theorem greedy_fallback_capacity (depot : ℝ × ℝ) (profile : String)
    (hN : (techs.map (fun t => t.id)).Nodup)
    (hle : ∀ t ∈ techs, t.current_load ≤ t.max_capacity) :
    CapacityRespected techs (greedy_fallback techs jobs depot profile) := by
  intro t ht
  have hI := capInv_loop
    (build_duration_matrix
      (techs.map (fun t => (t.lat, t.lon)) ++ jobs.map (fun j => (j.lat, j.lon))) profile)
    (build_distance_matrix
      (techs.map (fun t => (t.lat, t.lon)) ++ jobs.map (fun j => (j.lat, j.lon))))
    techs.length jobs techs hN jobs.length
  obtain ⟨stops, h1, h2, h3⟩ := hI t ht
  show ((dgetD (greedy_fallback techs jobs depot profile) t.id []).length : ℤ) ≤ _
  simp only [greedy_fallback]
  unfold dgetD
  rw [h1]
  have h4 := hle t ht
  simp only [Option.getD_some]
  omega

end CapacityInvariant

section SkillInvariantProof

variable (durM : List (List ℤ)) (distM : List (List ℝ)) (nt : ℕ)
variable (jobs : List Job) (techs : List Technician)

theorem skillInv_step (st st' : GreedyState)
    (h : greedyStep durM distM nt jobs techs st = some st')
    (hI : SkillInvariant jobs techs st.routes) : SkillInvariant jobs techs st'.routes := by
  obtain ⟨ch, hsel, rfl⟩ := greedyStep_cases durM distM nt jobs techs st st' h
  obtain ⟨⟨hj, ht, hasg, hload, hsk, hcost⟩, -⟩ :=
    selectPair_spec durM nt st.tech_pos st.tech_load st.assigned techs jobs ch hsel
  have hjob : ch.job ∈ jobs := List.get?_mem hj
  have htech : ch.tech ∈ techs := List.get?_mem ht
  intro p hp stop hstop
  rcases mem_dmodify hp with hp' | ⟨hpk, v, hv, hpv⟩
  · exact hI p hp' stop hstop
  · rw [hpv] at hstop
    rcases List.mem_append.mp hstop with h1 | h1
    · obtain ⟨j, hjm, t, htm, e1, e2, e3, e4⟩ := hI (ch.tech.id, v) hv stop h1
      exact ⟨j, hjm, t, htm, e1, by rw [hpk]; exact e2, by rw [hpk]; exact e3, e4⟩
    · have hstop' : stop = stepStop durM distM nt st ch := List.mem_singleton.mp h1
      subst hstop'
      refine ⟨ch.job, hjob, ch.tech, htech, rfl, ?_, ?_, skillOk_iff ch.job ch.tech |>.mp hsk⟩
      · show ch.tech.id = p.1
        rw [hpk]
      · rw [hpk]

theorem skillInv_init : SkillInvariant jobs techs (initRoutes techs) := by
  intro p hp stop hstop
  rw [initRoutes_val techs p hp] at hstop
  cases hstop

theorem greedy_fallback_skill (depot : ℝ × ℝ) (profile : String) :
    SkillInvariant jobs techs (greedy_fallback techs jobs depot profile) := by
  have hI := greedyLoop_preserve
    (build_duration_matrix
      (techs.map (fun t => (t.lat, t.lon)) ++ jobs.map (fun j => (j.lat, j.lon))) profile)
    (build_distance_matrix
      (techs.map (fun t => (t.lat, t.lon)) ++ jobs.map (fun j => (j.lat, j.lon))))
    techs.length jobs techs (fun st => SkillInvariant jobs techs st.routes)
    (fun st st' h hi => skillInv_step _ _ _ jobs techs st st' h hi)
    jobs.length (initState techs) (skillInv_init jobs techs)
  simp only [greedy_fallback]
  exact hI

end SkillInvariantProof

section IdsInvariant

variable (durM : List (List ℤ)) (distM : List (List ℝ)) (nt : ℕ)
variable (jobs : List Job) (techs : List Technician)

theorem stopIds_cons (p : String × List RouteStop) (rest : Schedule) :
    stopIds (p :: rest) = p.2.map (fun stop => stop.job_id) ++ stopIds rest := rfl

theorem stopIds_nil_of_empty (s : Schedule) (h : ∀ p ∈ s, p.2 = []) : stopIds s = [] := by
  induction s with
  | nil => rfl
  | cons p rest ih =>
    rw [stopIds_cons]
    rw [h p (List.mem_cons_self _ _)]
    exact ih (fun q hq => h q (List.mem_cons_of_mem _ hq))

theorem stopIds_dmodify_perm (k : String) (stop : RouteStop) :
    ∀ (d : Schedule) (v : List RouteStop), dlookup k d = some v →
      (stopIds (dmodify k (fun stops => stops ++ [stop]) d)).Perm
        (stop.job_id :: stopIds d) := by
  intro d
  induction d with
  | nil => intro v hv; cases hv
  | cons p rest ih =>
    intro v hv
    by_cases hp : p.1 = k
    · simp only [dmodify, if_pos hp]
      rw [stopIds_cons, stopIds_cons]
      show ((p.2 ++ [stop]).map (fun s => s.job_id) ++ stopIds rest).Perm _
      rw [List.map_append]
      simp only [List.map_cons, List.map_nil]
      have heq : (p.2.map (fun s => s.job_id) ++ [stop.job_id]) ++ stopIds rest =
          p.2.map (fun s => s.job_id) ++ (stop.job_id :: stopIds rest) := by
        rw [List.append_assoc]
        rfl
      rw [heq]
      exact List.perm_middle
    · rw [dlookup, if_neg hp] at hv
      simp only [dmodify, if_neg hp]
      rw [stopIds_cons, stopIds_cons]
      refine ((ih v hv).append_left _).trans ?_
      exact List.perm_middle

theorem keysInv_step (st st' : GreedyState)
    (h : greedyStep durM distM nt jobs techs st = some st') (hK : KeysInv techs st) :
    KeysInv techs st' := by
  obtain ⟨ch, hsel, rfl⟩ := greedyStep_cases durM distM nt jobs techs st st' h
  intro t ht
  obtain ⟨v, hv⟩ := hK t ht
  by_cases hid : t.id = ch.tech.id
  · refine ⟨v ++ [stepStop durM distM nt st ch], ?_⟩
    show dlookup t.id (dmodify ch.tech.id _ st.routes) = _
    rw [hid]
    exact dlookup_dmodify_self _ _ _ v (hid ▸ hv)
  · refine ⟨v, ?_⟩
    show dlookup t.id (dmodify ch.tech.id _ st.routes) = _
    rw [dlookup_dmodify_ne _ _ _ _ hid]
    exact hv

theorem idsInv_step (st st' : GreedyState)
    (h : greedyStep durM distM nt jobs techs st = some st') (hK : KeysInv techs st)
    (hI : IdsInv jobs st) : IdsInv jobs st' := by
  obtain ⟨ch, hsel, rfl⟩ := greedyStep_cases durM distM nt jobs techs st st' h
  obtain ⟨⟨hj, ht, hasg, hload, hsk, hcost⟩, -⟩ :=
    selectPair_spec durM nt st.tech_pos st.tech_load st.assigned techs jobs ch hsel
  have htech : ch.tech ∈ techs := List.get?_mem ht
  obtain ⟨v, hv⟩ := hK ch.tech htech
  have hperm := stopIds_dmodify_perm (ch.tech.id) (stepStop durM distM nt st ch) st.routes v hv
  have hid1 : (stepStop durM distM nt st ch).job_id = ch.job.id := rfl
  have hgetD : jobs.getD ch.ji jdef = ch.job := by
    rw [List.getD_eq_get?, hj]
    rfl
  have hlt : ch.ji < jobs.length := by
    obtain ⟨hh, -⟩ := List.get?_eq_some.mp hj
    exact hh
  constructor
  · show (stopIds (dmodify ch.tech.id _ st.routes)).toFinset = _
    rw [List.toFinset_eq_of_perm _ _ hperm, List.toFinset_cons, hid1]
    show insert ch.job.id (stopIds st.routes).toFinset =
      (insert ch.ji st.assigned).image (fun ji => (jobs.getD ji jdef).id)
    rw [Finset.image_insert, hgetD, hI.1]
  · show insert ch.ji st.assigned ⊆ Finset.range jobs.length
    exact Finset.insert_subset_iff.mpr ⟨Finset.mem_range.mpr hlt, hI.2⟩

theorem keysInv_init : KeysInv techs (initState techs) :=
  fun t ht => ⟨[], initRoutes_lookup techs t ht⟩

theorem idsInv_init : IdsInv jobs (initState techs) := by
  constructor
  · show (stopIds (initRoutes techs)).toFinset = (∅ : Finset ℕ).image _
    rw [stopIds_nil_of_empty _ (initRoutes_val techs), Finset.image_empty]
    rfl
  · show (∅ : Finset ℕ) ⊆ _
    exact Finset.empty_subset _

end IdsInvariant

section SlackLemmas

variable (durM : List (List ℤ)) (distM : List (List ℝ)) (nt : ℕ)
variable (jobs : List Job) (techs : List Technician)

theorem exists_pos_of_sum_pos : ∀ l : List ℤ, 0 < l.sum → ∃ x ∈ l, 0 < x := by
  intro l
  induction l with
  | nil => intro h; simp at h
  | cons x rest ih =>
    intro h
    by_cases hx : 0 < x
    · exact ⟨x, List.mem_cons_self _ _, hx⟩
    · rw [List.sum_cons] at h
      obtain ⟨y, hy, hy2⟩ := ih (by omega)
      exact ⟨y, List.mem_cons_of_mem _ hy, hy2⟩

theorem slack_ucard_step (hN : (techs.map (fun t => t.id)).Nodup) (st st' : GreedyState)
    (h : greedyStep durM distM nt jobs techs st = some st') :
    slack techs st' = slack techs st - 1 ∧ ucard jobs st' = ucard jobs st - 1 ∧
      1 ≤ ucard jobs st := by
  obtain ⟨ch, hsel, rfl⟩ := greedyStep_cases durM distM nt jobs techs st st' h
  obtain ⟨⟨hj, ht, hasg, hload, hsk, hcost⟩, -⟩ :=
    selectPair_spec durM nt st.tech_pos st.tech_load st.assigned techs jobs ch hsel
  obtain ⟨htl, hget⟩ := List.get?_eq_some.mp ht
  have hlt : ch.ji < jobs.length := by
    obtain ⟨hh, -⟩ := List.get?_eq_some.mp hj
    exact hh
  have hmem : ch.ji ∈ Finset.range jobs.length \ st.assigned :=
    Finset.mem_sdiff.mpr ⟨Finset.mem_range.mpr hlt, hasg⟩
  refine ⟨?_, ?_, ?_⟩
  · -- slack decreases by exactly one at the chosen technician
    have hsplit : techs = techs.take ch.ti ++ ch.tech :: techs.drop (ch.ti + 1) := by
      conv_lhs => rw [← List.take_append_drop ch.ti techs]
      rw [List.drop_eq_get_cons htl, hget]
    have hN2 := hN
    rw [hsplit, List.map_append, List.map_cons] at hN2
    have hnotin : ch.tech.id ∉ (techs.take ch.ti).map (fun t => t.id) ++
        (techs.drop (ch.ti + 1)).map (fun t => t.id) := by
      have := List.nodup_middle.mp hN2
      exact (List.nodup_cons.mp this).1
    have hne1 : ∀ u ∈ techs.take ch.ti, u.id ≠ ch.tech.id := by
      intro u hu he
      exact hnotin (List.mem_append.mpr (Or.inl (he ▸ List.mem_map.mpr ⟨u, hu, rfl⟩)))
    have hne2 : ∀ u ∈ techs.drop (ch.ti + 1), u.id ≠ ch.tech.id := by
      intro u hu he
      exact hnotin (List.mem_append.mpr (Or.inr (he ▸ List.mem_map.mpr ⟨u, hu, rfl⟩)))
    unfold slack
    rw [hsplit, List.map_append, List.map_cons, List.sum_append, List.sum_cons,
      List.map_append, List.map_cons, List.sum_append, List.sum_cons]
    have hmap1 : (techs.take ch.ti).map
        (fun t => max (t.max_capacity - (stepState durM distM nt st ch).tech_load t.id) 0) =
        (techs.take ch.ti).map (fun t => max (t.max_capacity - st.tech_load t.id) 0) := by
      refine List.map_congr_left ?_
      intro u hu
      show max (u.max_capacity - (if u.id = ch.tech.id then st.tech_load u.id + 1
        else st.tech_load u.id)) 0 = _
      rw [if_neg (hne1 u hu)]
    have hmap2 : (techs.drop (ch.ti + 1)).map
        (fun t => max (t.max_capacity - (stepState durM distM nt st ch).tech_load t.id) 0) =
        (techs.drop (ch.ti + 1)).map (fun t => max (t.max_capacity - st.tech_load t.id) 0) := by
      refine List.map_congr_left ?_
      intro u hu
      show max (u.max_capacity - (if u.id = ch.tech.id then st.tech_load u.id + 1
        else st.tech_load u.id)) 0 = _
      rw [if_neg (hne2 u hu)]
    rw [hmap1, hmap2]
    have hcenter : max (ch.tech.max_capacity -
        (stepState durM distM nt st ch).tech_load ch.tech.id) 0 =
        max (ch.tech.max_capacity - st.tech_load ch.tech.id) 0 - 1 := by
      show max (ch.tech.max_capacity - (if ch.tech.id = ch.tech.id then
        st.tech_load ch.tech.id + 1 else st.tech_load ch.tech.id)) 0 = _
      rw [if_pos rfl]
      rw [max_eq_left (by omega), max_eq_left (by omega)]
      ring
    rw [hcenter]
    ring
  · show (Finset.range jobs.length \ insert ch.ji st.assigned).card = _
    rw [Finset.sdiff_insert, Finset.card_erase_of_mem hmem]
    rfl
  · exact Finset.card_pos.mpr ⟨ch.ji, hmem⟩

theorem greedyLoop_all_assigned (hN : (techs.map (fun t => t.id)).Nodup)
    (hskills : ∀ j ∈ jobs, j.required_skills = []) :
    ∀ (fuel : ℕ) (st : GreedyState), ucard jobs st ≤ fuel →
      (ucard jobs st : ℤ) ≤ slack techs st →
      ucard jobs (greedyLoop durM distM nt jobs techs fuel st) = 0 := by
  intro fuel
  induction fuel with
  | zero =>
    intro st h1 _
    exact Nat.le_zero.mp h1
  | succ n ih =>
    intro st h1 h2
    by_cases h0 : ucard jobs st = 0
    · have hmono := greedyLoop_assigned_mono durM distM nt jobs techs (n + 1) st
      have hsub : Finset.range jobs.length \
          (greedyLoop durM distM nt jobs techs (n + 1) st).assigned ⊆
          Finset.range jobs.length \ st.assigned :=
        Finset.sdiff_subset_sdiff (Finset.Subset.refl _) hmono
      have := Finset.card_le_card hsub
      unfold ucard at h0 ⊢
      omega
    · have hpos : 0 < ucard jobs st := Nat.pos_of_ne_zero h0
      obtain ⟨ji, hji⟩ := Finset.card_pos.mp hpos
      obtain ⟨hjir, hjia⟩ := Finset.mem_sdiff.mp hji
      have hjilt : ji < jobs.length := Finset.mem_range.mp hjir
      have hjget : jobs.get? ji = some (jobs.get ⟨ji, hjilt⟩) := List.get?_eq_get hjilt
      have hslackpos : 0 < slack techs st := by
        have : (1 : ℤ) ≤ (ucard jobs st : ℤ) := by exact_mod_cast hpos
        omega
      obtain ⟨x, hx, hxpos⟩ := exists_pos_of_sum_pos _ hslackpos
      obtain ⟨t, htmem, rfl⟩ := List.mem_map.mp hx
      have hload : st.tech_load t.id < t.max_capacity := by
        rcases lt_max_iff.mp hxpos with hh | hh
        · omega
        · exact absurd hh (lt_irrefl 0)
      obtain ⟨ti, hti⟩ := List.mem_iff_get?.mp htmem
      have hsk : skillOk (jobs.get ⟨ji, hjilt⟩) t = true := by
        have hreq := hskills _ (List.get?_mem hjget)
        unfold skillOk
        rw [hreq]
        rfl
      have hsel := selectPair_isSome durM nt st.tech_pos st.tech_load st.assigned techs jobs
        ji ti _ t hjget hti hjia hload hsk
      cases hs : selectPair durM nt st.tech_pos st.tech_load st.assigned techs jobs with
      | none => exact absurd hs hsel
      | some ch =>
        have hstep : greedyStep durM distM nt jobs techs st =
            some (stepState durM distM nt st ch) := by
          unfold greedyStep
          rw [hs]
        obtain ⟨e1, e2, e3⟩ := slack_ucard_step durM distM nt jobs techs hN st _ hstep
        simp only [greedyLoop]
        rw [hstep]
        refine ih _ (by omega) ?_
        rw [e1, e2]
        have : ((ucard jobs st - 1 : ℕ) : ℤ) = (ucard jobs st : ℤ) - 1 := by
          omega
        rw [this]
        omega

end SlackLemmas

section Haversine

theorem atan2_nonneg (y x : ℝ) (hy : 0 ≤ y) (hx : 0 ≤ x) : 0 ≤ atan2 y x := by
  unfold atan2
  rcases eq_or_lt_of_le hx with hx0 | hxpos
  · rw [← hx0]
    rw [if_neg (lt_irrefl 0), if_neg (lt_irrefl 0)]
    rcases eq_or_lt_of_le hy with hy0 | hypos
    · rw [← hy0, if_neg (lt_irrefl 0), if_neg (lt_irrefl 0)]
    · rw [if_pos hypos]
      positivity
  · rw [if_pos hxpos]
    have h1 : 0 ≤ y / x := div_nonneg hy hxpos.le
    rw [← Real.arctan_zero]
    exact Real.arctan_strictMono.monotone h1

theorem haversine_nonneg (lat1 lon1 lat2 lon2 : ℝ) : 0 ≤ haversine lat1 lon1 lat2 lon2 := by
  unfold haversine
  have h := atan2_nonneg (Real.sqrt (hav_a lat1 lon1 lat2 lon2))
    (Real.sqrt (1 - hav_a lat1 lon1 lat2 lon2)) (Real.sqrt_nonneg _) (Real.sqrt_nonneg _)
  have h2 : (0 : ℝ) ≤ 6371 * 2 := by norm_num
  exact mul_nonneg h2 h

theorem hav_a_symm (lat1 lon1 lat2 lon2 : ℝ) :
    hav_a lat2 lon2 lat1 lon1 = hav_a lat1 lon1 lat2 lon2 := by
  unfold hav_a radians
  have h1 : (lat1 - lat2) * (Real.pi / 180) / 2 = -((lat2 - lat1) * (Real.pi / 180) / 2) := by
    ring
  have h2 : (lon1 - lon2) * (Real.pi / 180) / 2 = -((lon2 - lon1) * (Real.pi / 180) / 2) := by
    ring
  rw [h1, h2, Real.sin_neg, Real.sin_neg]
  ring

theorem haversine_symm (lat1 lon1 lat2 lon2 : ℝ) :
    haversine lat1 lon1 lat2 lon2 = haversine lat2 lon2 lat1 lon1 := by
  unfold haversine
  rw [hav_a_symm lat1 lon1 lat2 lon2]

theorem hav_a_self (lat lon : ℝ) : hav_a lat lon lat lon = 0 := by
  unfold hav_a radians
  rw [sub_self, sub_self, zero_mul, zero_div, Real.sin_zero]
  ring

theorem haversine_self (lat lon : ℝ) : haversine lat lon lat lon = 0 := by
  unfold haversine
  rw [hav_a_self, Real.sqrt_zero, sub_zero, Real.sqrt_one]
  unfold atan2
  rw [if_pos one_pos]
  rw [zero_div, Real.arctan_zero, mul_zero]

end Haversine

section Rounding

theorem pyRoundInt_nonneg (y : ℝ) (hy : 0 ≤ y) : 0 ≤ pyRoundInt y := by
  unfold pyRoundInt
  have h0 : (0 : ℤ) ≤ ⌊y⌋ := Int.floor_nonneg.mpr hy
  split_ifs <;> omega

theorem pyRound1_nonneg (x : ℝ) (hx : 0 ≤ x) : 0 ≤ pyRound1 x := by
  unfold pyRound1
  have h := pyRoundInt_nonneg (10 * x) (by positivity)
  have h2 : (0 : ℝ) ≤ (pyRoundInt (10 * x) : ℝ) := by exact_mod_cast h
  exact div_nonneg h2 (by norm_num)

theorem pyRound1_200_7 : pyRound1 ((200 : ℝ) / 7) = 28.6 := by
  have hfl : ⌊(10 : ℝ) * (200 / 7)⌋ = 285 := by
    apply Int.floor_eq_iff.mpr
    constructor <;> norm_num
  have hfr : Int.fract ((10 : ℝ) * (200 / 7)) = 5 / 7 := by
    rw [Int.fract, hfl]
    norm_num
  unfold pyRound1 pyRoundInt
  rw [hfr, hfl]
  rw [if_neg (by norm_num), if_pos (by norm_num)]
  norm_num

theorem totalKm_exSched : totalKm exSched = 1 := by
  unfold totalKm exSched exStop
  simp

end Rounding

/-- C9: for all coordinate pairs, `haversine(a,b) = haversine(b,a)`, the
distance is non-negative, and `haversine(a,a) = 0`. -/
theorem haversine_symm_nonneg_self (lat1 lon1 lat2 lon2 : ℝ) :
    haversine lat1 lon1 lat2 lon2 = haversine lat2 lon2 lat1 lon1 ∧
      0 ≤ haversine lat1 lon1 lat2 lon2 ∧ haversine lat1 lon1 lat1 lon1 = 0 :=
  ⟨haversine_symm lat1 lon1 lat2 lon2, haversine_nonneg lat1 lon1 lat2 lon2,
    haversine_self lat1 lon1⟩

/-- C3: `optimize_routes` on two empty lists returns the empty Schedule
through a normal return, whatever the solver outcome would have been. -/
theorem optimize_routes_empty_empty (vr : SolverOutcome) (depot : ℝ × ℝ) (profile : String) :
    optimize_routes vr [] [] depot profile = Except.ok ([] : Schedule) := rfl

/-- C2 counterexample: with both lists empty the call returns the empty
Schedule through `.ok`; no `BuildError` (which exists nowhere in the code)
or any other error is surfaced. -/
theorem optimize_routes_empty_ok :
    optimize_routes SolverOutcome.raises [] [] ((0 : ℝ), (0 : ℝ)) "urban" =
      Except.ok ([] : Schedule) := rfl

/-- C2 (amended): no input condition is surfaced as an error: every call
returns normally, and the both-empty input in particular yields the empty
Schedule. -/
theorem optimize_routes_never_errors (vr : SolverOutcome) (techs : List Technician)
    (jobs : List Job) (depot : ℝ × ℝ) (profile : String) :
    (∃ s, optimize_routes vr techs jobs depot profile = Except.ok s) ∧
      (techs = [] → jobs = [] →
        optimize_routes vr techs jobs depot profile = Except.ok ([] : Schedule)) := by
  constructor
  · unfold optimize_routes
    by_cases h : (techs.isEmpty || jobs.isEmpty) = true
    · rw [if_pos h]
      exact ⟨[], rfl⟩
    · rw [if_neg h]
      cases vr with
      | ok s => exact ⟨s, rfl⟩
      | raises => exact ⟨_, rfl⟩
  · intro h1 h2
    subst h1
    subst h2
    rfl

/-- C6: every selection round of the greedy fallback that returns a pair
returns a feasible pair of minimal `duration / max(priority, 1)` cost,
with ties broken by job then technician input order (so the round is
deterministic). -/
theorem selectPair_optimal (durM : List (List ℤ)) (nt : ℕ) (pos : String → ℕ)
    (load : String → ℤ) (asg : Finset ℕ) (techs : List Technician) (jobs : List Job)
    (ch : Choice) (h : selectPair durM nt pos load asg techs jobs = some ch) :
    ChoiceOptimal durM nt pos load asg techs jobs ch :=
  selectPair_spec durM nt pos load asg techs jobs ch h

/-- C6 witness: the selection spec holds on concrete data where the round
returns the unique feasible pair. -/
theorem selectPair_optimal_witness :
    ChoiceOptimal exDurM 1 (fun _ => 0) (fun _ => 0) ∅ [T1] [J1] exChoice :=
  selectPair_optimal exDurM 1 (fun _ => 0) (fun _ => 0) ∅ [T1] [J1] exChoice rfl

/-- C8 counterexample: with a single 1 km stop and the default factor 1.4
the reported `savings_pct` is the one-decimal rounding 28.6, not the exact
`(1 − optimizedKm/naiveKm) × 100 = 200/7`. -/
theorem estimate_savings_rounds_cex :
    (estimate_savings exSched 1.4).savings_pct ≠
      (1 - totalKm exSched / (totalKm exSched * 1.4)) * 100 := by
  have ht : totalKm exSched = 1 := totalKm_exSched
  have hval : (estimate_savings exSched 1.4).savings_pct = 28.6 := by
    show (if 0 < totalKm exSched * 1.4 then
        pyRound1 ((1 - totalKm exSched / (totalKm exSched * 1.4)) * 100) else 0) = 28.6
    rw [ht, if_pos (by norm_num)]
    have h2 : (1 - (1 : ℝ) / (1 * 1.4)) * 100 = 200 / 7 := by norm_num
    rw [h2, pyRound1_200_7]
  rw [hval, ht]
  norm_num

/-- C8 (amended): `estimate_savings` is a pure function of the Schedule and
factor with `optimizedKm = Σ distance_km` and `naiveKm = optimizedKm × f` as
internal quantities; the reported fields are their one-decimal roundings,
`savings_pct = round((1 − optimizedKm/naiveKm) × 100, 1)` when `naiveKm > 0`
and `0` otherwise; consequently `savings_pct ≥ 0` whenever
`optimizedKm ≤ naiveKm`, and `savings_pct = 0` when `optimizedKm = 0`. -/
theorem estimate_savings_spec (routes : Schedule) (f : ℝ) :
    (estimate_savings routes f).savings_pct =
        (if 0 < totalKm routes * f then
          pyRound1 ((1 - totalKm routes / (totalKm routes * f)) * 100) else 0) ∧
      (totalKm routes ≤ totalKm routes * f → 0 ≤ (estimate_savings routes f).savings_pct) ∧
      (totalKm routes = 0 → (estimate_savings routes f).savings_pct = 0) ∧
      (estimate_savings routes f).optimized_km = pyRound1 (totalKm routes) ∧
      (estimate_savings routes f).naive_estimate_km = pyRound1 (totalKm routes * f) := by
  refine ⟨rfl, ?_, ?_, rfl, rfl⟩
  · intro hle
    show 0 ≤ (if 0 < totalKm routes * f then
      pyRound1 ((1 - totalKm routes / (totalKm routes * f)) * 100) else 0)
    by_cases hpos : 0 < totalKm routes * f
    · rw [if_pos hpos]
      apply pyRound1_nonneg
      have hq : totalKm routes / (totalKm routes * f) ≤ 1 := (div_le_one hpos).mpr hle
      have h1 : (0 : ℝ) ≤ 1 - totalKm routes / (totalKm routes * f) := by linarith
      exact mul_nonneg h1 (by norm_num)
    · rw [if_neg hpos]
  · intro h0
    show (if 0 < totalKm routes * f then
      pyRound1 ((1 - totalKm routes / (totalKm routes * f)) * 100) else 0) = 0
    rw [h0, zero_mul]
    rw [if_neg (lt_irrefl 0)]

/-- C10: whenever the optimized distance is positive, the reported
`savings_pct` is `round((1 − 1/f) × 100, 1)`, a constant in the routes;
with the default factor 1.4 it is always 28.6. -/
theorem savings_pct_constant (routes : Schedule) (f : ℝ) (ht : 0 < totalKm routes) :
    (0 < f → (estimate_savings routes f).savings_pct = pyRound1 ((1 - 1 / f) * 100)) ∧
      (estimate_savings routes 1.4).savings_pct = 28.6 := by
  have hne : totalKm routes ≠ 0 := ne_of_gt ht
  constructor
  · intro hf
    show (if 0 < totalKm routes * f then
      pyRound1 ((1 - totalKm routes / (totalKm routes * f)) * 100) else 0) = _
    rw [if_pos (mul_pos ht hf)]
    have hq : totalKm routes / (totalKm routes * f) = 1 / f := by
      field_simp
    rw [hq]
  · show (if 0 < totalKm routes * 1.4 then
      pyRound1 ((1 - totalKm routes / (totalKm routes * 1.4)) * 100) else 0) = _
    rw [if_pos (mul_pos ht (by norm_num))]
    have hq : totalKm routes / (totalKm routes * 1.4) = 1 / 1.4 := by
      field_simp
    rw [hq]
    have h2 : (1 - 1 / (1.4 : ℝ)) * 100 = 200 / 7 := by norm_num
    rw [h2, pyRound1_200_7]

/-- C10 witness: on the one-stop example schedule the reported savings
percentage is 28.6. -/
theorem savings_pct_constant_witness :
    (0 < (1.4 : ℝ) →
        (estimate_savings exSched 1.4).savings_pct = pyRound1 ((1 - 1 / (1.4 : ℝ)) * 100)) ∧
      (estimate_savings exSched 1.4).savings_pct = 28.6 :=
  savings_pct_constant exSched 1.4 (by rw [totalKm_exSched]; norm_num)

theorem optimize_routes_raises_eq (techs : List Technician) (jobs : List Job)
    (depot : ℝ × ℝ) (profile : String) (htne : techs ≠ []) (hjne : jobs ≠ []) :
    optimize_routes SolverOutcome.raises techs jobs depot profile =
      Except.ok (greedy_fallback techs jobs depot profile) := by
  unfold optimize_routes
  have h1 : techs.isEmpty = false := by simp [List.isEmpty_iff, htne]
  have h2 : jobs.isEmpty = false := by simp [List.isEmpty_iff, hjne]
  rw [if_neg (by simp [h1, h2])]

/-- C1: if the solver raises, `optimize_routes` recovers by returning the
greedy fallback result through a normal return; when at least one feasible
(job, technician) pair exists the returned Schedule is non-empty.
Technician ids are unique per the data model. -/
theorem optimize_routes_fallback_nonempty (techs : List Technician) (jobs : List Job)
    (depot : ℝ × ℝ) (profile : String)
    (hN : (techs.map (fun t => t.id)).Nodup)
    (hfeas : ∃ j ∈ jobs, ∃ t ∈ techs, (∀ sk ∈ j.required_skills, sk ∈ t.skills) ∧
      t.current_load < t.max_capacity) :
    optimize_routes SolverOutcome.raises techs jobs depot profile =
        Except.ok (greedy_fallback techs jobs depot profile) ∧
      ∃ p ∈ greedy_fallback techs jobs depot profile, p.2 ≠ [] := by
  obtain ⟨j, hjm, t, htm, hsk, hcap⟩ := hfeas
  have htne : techs ≠ [] := List.ne_nil_of_mem htm
  have hjne : jobs ≠ [] := List.ne_nil_of_mem hjm
  refine ⟨optimize_routes_raises_eq techs jobs depot profile htne hjne, ?_⟩
  obtain ⟨ji, hjget⟩ := List.mem_iff_get?.mp hjm
  obtain ⟨ti, htget⟩ := List.mem_iff_get?.mp htm
  have hsko : skillOk j t = true := (skillOk_iff j t).mpr hsk
  have hload0 : (initState techs).tech_load t.id < t.max_capacity := by
    rw [initState_load techs hN t htm]
    exact hcap
  have key : ∀ (durM : List (List ℤ)) (distM : List (List ℝ)),
      ∃ p ∈ (greedyLoop durM distM techs.length jobs techs jobs.length
        (initState techs)).routes, p.2 ≠ [] := by
    intro durM distM
    have hne : selectPair durM techs.length (initState techs).tech_pos
        (initState techs).tech_load (initState techs).assigned techs jobs ≠ none :=
      selectPair_isSome durM techs.length _ _ _ techs jobs ji ti j t hjget htget
        (Finset.not_mem_empty ji) hload0 hsko
    cases hs : selectPair durM techs.length (initState techs).tech_pos
        (initState techs).tech_load (initState techs).assigned techs jobs with
    | none => exact absurd hs hne
    | some ch =>
      obtain ⟨⟨hj', ht', -, -, -, -⟩, -⟩ :=
        selectPair_spec durM techs.length _ _ _ techs jobs ch hs
      have htech : ch.tech ∈ techs := List.get?_mem ht'
      have hstep : greedyStep durM distM techs.length jobs techs (initState techs) =
          some (stepState durM distM techs.length (initState techs) ch) := by
        unfold greedyStep
        rw [hs]
      have hlook : dlookup ch.tech.id (initState techs).routes = some [] :=
        initRoutes_lookup techs ch.tech htech
      have hlen1 : 1 ≤ (dgetD (stepState durM distM techs.length (initState techs) ch).routes
          ch.tech.id []).length := by
        show 1 ≤ (dgetD (dmodify ch.tech.id _ (initState techs).routes) ch.tech.id []).length
        unfold dgetD
        rw [dlookup_dmodify_self _ _ _ [] hlook]
        simp
      obtain ⟨m, hm⟩ : ∃ m, jobs.length = m + 1 := by
        cases hl : jobs.length with
        | zero => exact absurd (List.length_eq_zero.mp hl) hjne
        | succ m => exact ⟨m, rfl⟩
      have hfin : 1 ≤ (dgetD (greedyLoop durM distM techs.length jobs techs jobs.length
          (initState techs)).routes ch.tech.id []).length := by
        rw [hm]
        simp only [greedyLoop]
        rw [hstep]
        exact le_trans hlen1 (greedyLoop_len_mono durM distM techs.length jobs techs
          ch.tech.id m _)
      cases hv : dlookup ch.tech.id (greedyLoop durM distM techs.length jobs techs
          jobs.length (initState techs)).routes with
      | none =>
        unfold dgetD at hfin
        rw [hv] at hfin
        simp at hfin
      | some v =>
        refine ⟨(ch.tech.id, v), dlookup_mem hv, ?_⟩
        intro hempty
        unfold dgetD at hfin
        rw [hv] at hfin
        rw [show (ch.tech.id, v).2 = v from rfl] at hempty
        rw [hempty] at hfin
        simp at hfin
  simp only [greedy_fallback]
  exact key _ _

/-- C1 witness: one skilled technician with free capacity and one
requirement-free job produce a non-empty fallback Schedule. -/
theorem optimize_routes_fallback_nonempty_witness :
    optimize_routes SolverOutcome.raises [T1] [J1] ((0 : ℝ), (0 : ℝ)) "urban" =
        Except.ok (greedy_fallback [T1] [J1] ((0 : ℝ), (0 : ℝ)) "urban") ∧
      ∃ p ∈ greedy_fallback [T1] [J1] ((0 : ℝ), (0 : ℝ)) "urban", p.2 ≠ [] :=
  optimize_routes_fallback_nonempty [T1] [J1] ((0 : ℝ), (0 : ℝ)) "urban"
    (by simp [T1])
    ⟨J1, by simp, T1, by simp, by simp [J1], by norm_num [T1]⟩

/-- C4: on the greedy fallback path (the solver raised) every technician in
the produced Schedule receives at most `max_capacity − current_load` stops;
ids are unique and `current_load ≤ max_capacity` at call time per the data
model. -/
theorem optimize_routes_capacity (techs : List Technician) (jobs : List Job)
    (depot : ℝ × ℝ) (profile : String) (s : Schedule)
    (hN : (techs.map (fun t => t.id)).Nodup)
    (hle : ∀ t ∈ techs, t.current_load ≤ t.max_capacity)
    (h : optimize_routes SolverOutcome.raises techs jobs depot profile = Except.ok s) :
    CapacityRespected techs s := by
  unfold optimize_routes at h
  by_cases hc : (techs.isEmpty || jobs.isEmpty) = true
  · rw [if_pos hc] at h
    injection h with h2
    intro t ht
    have h3 := hle t ht
    rw [← h2]
    show ((dgetD ([] : Schedule) t.id []).length : ℤ) ≤ _
    simp [dgetD, dlookup]
    omega
  · rw [if_neg hc] at h
    injection h with h2
    rw [← h2]
    exact greedy_fallback_capacity jobs techs depot profile hN hle

/-- C4 witness: a capacity-zero technician keeps an empty stop list, within
its zero remaining capacity. -/
theorem optimize_routes_capacity_witness : CapacityRespected [T0] [("t0", [])] :=
  optimize_routes_capacity [T0] [J1] ((0 : ℝ), (0 : ℝ)) "urban" [("t0", [])]
    (by simp [T0])
    (by
      intro t ht
      rw [List.mem_singleton.mp ht]
      norm_num [T0])
    rfl

/-- C5: every Route Stop in a Schedule produced by the greedy fallback is
filed under the technician whose id it records, and that technician's
skills contain all required skills of the stop's job. -/
theorem optimize_routes_skill_invariant (techs : List Technician) (jobs : List Job)
    (depot : ℝ × ℝ) (profile : String) (s : Schedule)
    (h : optimize_routes SolverOutcome.raises techs jobs depot profile = Except.ok s) :
    SkillInvariant jobs techs s := by
  unfold optimize_routes at h
  by_cases hc : (techs.isEmpty || jobs.isEmpty) = true
  · rw [if_pos hc] at h
    injection h with h2
    intro p hp stop hstop
    rw [← h2] at hp
    cases hp
  · rw [if_neg hc] at h
    injection h with h2
    rw [← h2]
    exact greedy_fallback_skill jobs techs depot profile

/-- C5 witness: the skill invariant holds on the concrete capacity-zero
example Schedule. -/
theorem optimize_routes_skill_invariant_witness : SkillInvariant [J1] [T0] [("t0", [])] :=
  optimize_routes_skill_invariant [T0] [J1] ((0 : ℝ), (0 : ℝ)) "urban" [("t0", [])] rfl

theorem image_getD_range (l : List Job) :
    (Finset.range l.length).image (fun ji => (l.getD ji jdef).id) =
      (l.map (fun j => j.id)).toFinset := by
  ext x
  simp only [Finset.mem_image, Finset.mem_range, List.mem_toFinset, List.mem_map]
  constructor
  · rintro ⟨ji, hji, rfl⟩
    refine ⟨l.getD ji jdef, ?_, rfl⟩
    rw [List.getD_eq_get?, List.get?_eq_get hji]
    show l.get ⟨ji, hji⟩ ∈ l
    exact l.get_mem _ _
  · rintro ⟨j, hj, rfl⟩
    obtain ⟨n, hn⟩ := List.mem_iff_get?.mp hj
    obtain ⟨hlt, -⟩ := List.get?_eq_some.mp hn
    exact ⟨n, hlt, by rw [List.getD_eq_get?, hn, Option.getD_some]⟩

theorem reoptimize_no_completed (techs : List Technician) (existing : Schedule)
    (depot : ℝ × ℝ) :
    reoptimize SolverOutcome.raises techs existing [] ∅ depot =
      optimize_routes SolverOutcome.raises
        (techs.map (fun t => { t with current_load := 0 }))
        (existing.bind (fun p => p.2.map jobFromStop)) depot "urban" := by
  unfold reoptimize
  have h1 : existing.bind (fun p =>
      (p.2.filter (fun stop => stop.job_id ∉ (∅ : Finset String))).map jobFromStop) =
      existing.bind (fun p => p.2.map jobFromStop) := by
    have hf : ∀ p : String × List RouteStop,
        p.2.filter (fun stop => stop.job_id ∉ (∅ : Finset String)) = p.2 := by
      intro p
      apply List.filter_eq_self.mpr
      intro a _
      simp
    exact congrArg _ (funext fun p => by rw [hf p])
  have h2 : techs.map (fun t => { t with current_load :=
      (((dgetD existing t.id []).filter (fun s => s.job_id ∈ (∅ : Finset String))).length : ℤ) }) =
      techs.map (fun t => { t with current_load := (0 : ℤ) }) := by
    apply List.map_congr_left
    intro t _
    have hf : (dgetD existing t.id []).filter (fun s => s.job_id ∈ (∅ : Finset String)) = [] := by
      apply List.filter_eq_nil.mpr
      intro a _
      simp
    rw [hf]
    rfl
  rw [h1, h2]
  simp only [List.append_nil]

theorem greedy_covers_all (techs2 : List Technician) (jobs2 : List Job)
    (depot : ℝ × ℝ) (profile : String)
    (hN2 : (techs2.map (fun t => t.id)).Nodup)
    (hload0 : ∀ t ∈ techs2, t.current_load = 0)
    (hsk : ∀ j ∈ jobs2, j.required_skills = [])
    (hcap : (jobs2.length : ℤ) ≤ (techs2.map (fun t => max t.max_capacity 0)).sum) :
    scheduleJobIds (greedy_fallback techs2 jobs2 depot profile) =
      (jobs2.map (fun j => j.id)).toFinset := by
  have key : ∀ (durM : List (List ℤ)) (distM : List (List ℝ)),
      scheduleJobIds (greedyLoop durM distM techs2.length jobs2 techs2 jobs2.length
        (initState techs2)).routes = (jobs2.map (fun j => j.id)).toFinset := by
    intro durM distM
    have hKI := greedyLoop_preserve durM distM techs2.length jobs2 techs2
      (fun st => KeysInv techs2 st ∧ IdsInv jobs2 st)
      (fun st st' h hP =>
        ⟨keysInv_step durM distM techs2.length jobs2 techs2 st st' h hP.1,
          idsInv_step durM distM techs2.length jobs2 techs2 st st' h hP.1 hP.2⟩)
      jobs2.length (initState techs2) ⟨keysInv_init techs2, idsInv_init jobs2 techs2⟩
    have hu0 : ucard jobs2 (initState techs2) = jobs2.length := by
      show (Finset.range jobs2.length \ (∅ : Finset ℕ)).card = jobs2.length
      rw [Finset.sdiff_empty, Finset.card_range]
    have hslack0 : slack techs2 (initState techs2) =
        (techs2.map (fun t => max t.max_capacity 0)).sum := by
      unfold slack
      refine congrArg List.sum (List.map_congr_left ?_)
      intro t ht
      rw [initState_load techs2 hN2 t ht, hload0 t ht, sub_zero]
    have hU := greedyLoop_all_assigned durM distM techs2.length jobs2 techs2 hN2 hsk
      jobs2.length (initState techs2) (by rw [hu0]) (by rw [hu0, hslack0]; exact hcap)
    obtain ⟨-, hids, hsub⟩ := hKI
    have hempty : Finset.range jobs2.length \
        (greedyLoop durM distM techs2.length jobs2 techs2 jobs2.length
          (initState techs2)).assigned = ∅ := Finset.card_eq_zero.mp hU
    have hsub2 : Finset.range jobs2.length ⊆
        (greedyLoop durM distM techs2.length jobs2 techs2 jobs2.length
          (initState techs2)).assigned := Finset.sdiff_eq_empty_iff_subset.mp hempty
    have hasg : (greedyLoop durM distM techs2.length jobs2 techs2 jobs2.length
        (initState techs2)).assigned = Finset.range jobs2.length :=
      Finset.Subset.antisymm hsub hsub2
    show (stopIds _).toFinset = _
    rw [hids, hasg, image_getD_range]
  simp only [greedy_fallback]
  exact key _ _

/-- C7 counterexample: one technician with `max_capacity = 0` and an
existing one-stop Schedule; re-optimizing with nothing completed and no new
jobs drops the job, so the produced Schedule covers a strictly smaller set
of job ids than the input Schedule. -/
theorem reoptimize_drops_jobs :
    reoptimize SolverOutcome.raises [T0] [("t0", [stopA])] [] ∅ ((0 : ℝ), (0 : ℝ)) =
        Except.ok [("t0", [])] ∧
      scheduleJobIds [("t0", [])] ≠ scheduleJobIds [("t0", [stopA])] := by
  constructor
  · rfl
  · have h1 : scheduleJobIds [("t0", ([] : List RouteStop))] = ∅ := rfl
    have h2 : scheduleJobIds [("t0", [stopA])] = {"a"} := rfl
    rw [h1, h2]
    exact (Finset.singleton_ne_empty "a").symm

/-- C7 (amended): with distinct technician ids and enough total
`max_capacity` for all surviving stops, `Reoptimize` with an empty completed
set and no new jobs (on the greedy fallback path) produces a Schedule
covering exactly the same set of job ids as the input Schedule. -/
theorem reoptimize_same_ids (techs : List Technician) (existing : Schedule) (depot : ℝ × ℝ)
    (hN : (techs.map (fun t => t.id)).Nodup)
    (hcap : (stopCount existing : ℤ) ≤ (techs.map (fun t => max t.max_capacity 0)).sum) :
    ∃ s, reoptimize SolverOutcome.raises techs existing [] ∅ depot = Except.ok s ∧
      scheduleJobIds s = scheduleJobIds existing := by
  rw [reoptimize_no_completed techs existing depot]
  have hidseq : (existing.bind (fun p => p.2.map jobFromStop)).map (fun j => j.id) =
      stopIds existing := by
    rw [List.map_bind]
    exact congrArg _ (funext fun p => by
      rw [List.map_map]
      exact List.map_congr_left fun s _ => rfl)
  have hlen2 : (existing.bind (fun p => p.2.map jobFromStop)).length = stopCount existing := by
    rw [show stopCount existing = (stopIds existing).length from rfl, ← hidseq, List.length_map]
  by_cases hjne : existing.bind (fun p => p.2.map jobFromStop) = []
  · rw [hjne]
    refine ⟨[], ?_, ?_⟩
    · unfold optimize_routes
      rw [if_pos (by rw [List.isEmpty_nil, Bool.or_true])]
    · have hids0 : stopIds existing = [] := by
        rw [← hidseq, hjne]
        rfl
      show scheduleJobIds ([] : Schedule) = scheduleJobIds existing
      unfold scheduleJobIds
      rw [hids0]
      rfl
  · have htne : techs ≠ [] := by
      intro h0
      subst h0
      simp only [List.map_nil, List.sum_nil] at hcap
      have hpos := List.length_pos.mpr hjne
      rw [hlen2] at hpos
      omega
    have htne2 : techs.map (fun t => { t with current_load := (0 : ℤ) }) ≠ [] := by
      intro h0
      exact htne (List.map_eq_nil.mp h0)
    refine ⟨greedy_fallback (techs.map (fun t => { t with current_load := (0 : ℤ) }))
      (existing.bind (fun p => p.2.map jobFromStop)) depot "urban", ?_, ?_⟩
    · exact optimize_routes_raises_eq (techs.map (fun t => { t with current_load := (0 : ℤ) }))
        (existing.bind (fun p => p.2.map jobFromStop)) depot "urban" htne2 hjne
    have hN2 : ((techs.map (fun t => { t with current_load := (0 : ℤ) })).map
        (fun t => t.id)).Nodup := by
      rw [List.map_map]
      exact hN
    have hload0 : ∀ t ∈ techs.map (fun t => { t with current_load := (0 : ℤ) }),
        t.current_load = 0 := by
      intro t' ht'
      obtain ⟨t, -, rfl⟩ := List.mem_map.mp ht'
      rfl
    have hsk0 : ∀ j ∈ existing.bind (fun p => p.2.map jobFromStop),
        j.required_skills = [] := by
      intro j hj
      obtain ⟨p, -, hj2⟩ := List.mem_bind.mp hj
      obtain ⟨stop, -, rfl⟩ := List.mem_map.mp hj2
      rfl
    have hcap2 : ((existing.bind (fun p => p.2.map jobFromStop)).length : ℤ) ≤
        ((techs.map (fun t => { t with current_load := (0 : ℤ) })).map
          (fun t => max t.max_capacity 0)).sum := by
      rw [hlen2, List.map_map]
      exact hcap
    rw [greedy_covers_all _ _ depot "urban" hN2 hload0 hsk0 hcap2, hidseq]
    rfl

/-- C7 witness: a technician with free capacity and an existing Schedule
with no stops reproduce the (empty) covered id set. -/
theorem reoptimize_same_ids_witness :
    ∃ s, reoptimize SolverOutcome.raises [T1] [("t1", [])] [] ∅ ((0 : ℝ), (0 : ℝ)) =
        Except.ok s ∧
      scheduleJobIds s = scheduleJobIds [("t1", [])] :=
  reoptimize_same_ids [T1] [("t1", [])] ((0 : ℝ), (0 : ℝ))
    (by simp [T1])
    (by
      have h1 : stopCount [("t1", ([] : List RouteStop))] = 0 := rfl
      rw [h1]
      norm_num [T1])

end Hvac
